import Mathlib

/-!
# PolyGlot: the engine process supervisor, the book merge and the option file

A shallow embedding of `src/polyglot-5904a29/engine.cpp` (both halves of its
`#ifndef _WIN32 ... #else ... #endif` split), of the merge loop, the entry encoding and
`variants_merge` of `src/book_merge.c`, and of `parse_line` of `src/main.cpp`, and
theorems about them.

* C strings are lists of characters (the characters before the terminating NUL).
* `engine.h`, `io.h`/`io.cpp` and `pipe.h`/`pipe.cpp` are not among the sources.
  The two state masks `ENGINE_EOF` and `ENGINE_ACTIVE` are parameters
  (`engine_flags`); the line transport is modelled from the specification.
* A blocking call that never returns is the result `none`; loops take fuel.
* Machine integers are natural numbers, reduced modulo 2^64 or 2^16 where the code
  stores them in a `uint64` or a `uint16`.
-/

namespace PolyGlot

/-- A C string: the characters before the terminating NUL. -/
abbrev cstring := List Char

/-- The character NUL that terminates a C string. -/
def NUL : Char := Char.ofNat 0

/-- The end-of-line character LF. -/
def LF : Char := Char.ofNat 10

/-- The horizontal tab character. -/
def TAB : Char := Char.ofNat 9

/-- The constant `StringSize = 4096` of both halves of engine.cpp. -/
def StringSize : Nat := 4096

/-- The state masks `ENGINE_EOF` and `ENGINE_ACTIVE` used by engine.cpp; their
values are defined in engine.h, so they are parameters here. -/
structure engine_flags where
  ENGINE_EOF : Nat
  ENGINE_ACTIVE : Nat
  deriving DecidableEq, Repr

/-- What is done on the operating-system side of a transport, oldest first in a log. -/
inductive io_event where
  | close
  | read (line : Option cstring)
  | write (unit : cstring)
  | kill
  deriving DecidableEq, Repr

/-- Modelled from the spec: the operating-system side of the transport ("a read side and
a write side bound to the child's standard output and standard input"). `pipe` is what
the successive reads of the child's output will deliver, each read as the list of lines
it completes; `pipe_eof` says that the child has closed its output, so that
end-of-stream follows the content of `pipe` (otherwise a read on the empty pipe blocks
for ever); `log` records the operations performed on the transport (lines read out
and end-of-stream reports, units written, close, kill); `nice` and `priority_class`
are the scheduling priority of the child process as the operating system holds it. -/
structure channel where
  pipe : List (List cstring)
  pipe_eof : Bool
  log : List io_event
  nice : Int
  priority_class : Nat
  deriving DecidableEq, Repr

/-- Append an event to the log of a channel. -/
def channel.record (c : channel) (e : io_event) : channel :=
  { c with log := c.log ++ [e] }

/-- The options `engine_open` reads with `option_get_*`. -/
structure options where
  EngineDir : cstring
  EngineCommand : cstring
  UseNice : Bool
  NiceValue : Int
  Affinity : Int
  deriving DecidableEq, Repr

/-- The operations on an engine that the supervisor offers after `engine_open`, with
their arguments. -/
inductive engine_call where
  | get
  | get_non_blocking
  | send (text : cstring)
  | send_queue (text : cstring)
  | set_nice_value (value : Int)
  | close
  deriving DecidableEq, Repr

/-! ## The OS-native half (`#else` branch: WIN32) -/

namespace Win32

/-- Modelled from the spec: the process object of pipe.h ("a process object exposing
open/active/kill/close plus a buffered line reader"). `lines` are the complete lines
already buffered, `eof` is the flag `EOF_()` reports. -/
structure PipeStruct where
  hProcess : Nat
  active : Bool
  eof : Bool
  lines : List cstring
  chan : channel
  deriving DecidableEq, Repr

/-- The struct `engine_t` (engine.h) as engine.cpp uses it: `io` and `state`. -/
structure engine_t where
  io : PipeStruct
  state : Nat
  deriving DecidableEq, Repr

/-- A pointer of type `engine_t *`: to the global `Engine` or to another object. -/
inductive engine_ref where
  | Engine
  | other
  deriving DecidableEq, Repr

/-- The memory the WIN32 half works on: the static variables `nQueuePtr`,
`szQueueString` (an array of `StringSize` characters) and `Engine`, and one further
`engine_t` object that a caller may own. -/
structure world where
  nQueuePtr : Nat
  szQueueString : List Char
  Engine : engine_t
  other : engine_t
  deriving DecidableEq, Repr

/-- Read through an `engine_t *`. -/
def world.deref (w : world) : engine_ref → engine_t
  | .Engine => w.Engine
  | .other => w.other

/-- Write through an `engine_t *`. -/
def world.assign (w : world) : engine_ref → engine_t → world
  | .Engine, e => { w with Engine := e }
  | .other, e => { w with other := e }

/-- The C string held by a character array: the characters before the first NUL. -/
def c_str (buf : List Char) : cstring := buf.takeWhile (fun c => c != NUL)

/-- The library call `vsprintf(buf + pos, ...)` whose formatted text is `text`: the text
and a terminating NUL are stored from offset `pos`; the result is the array and the
number of characters written (NUL excluded). Writing beyond the array is undefined
behaviour: `none`. -/
def vsprintf (buf : List Char) (pos : Nat) (text : cstring) : Option (List Char × Nat) :=
  if pos + text.length + 1 ≤ buf.length then
    some (buf.take pos ++ text ++ NUL :: buf.drop (pos + text.length + 1), text.length)
  else none

/-- Modelled from the spec: `PipeStruct::LineOutput`, which hands one unit to the
transport. -/
def PipeStruct.LineOutput (io : PipeStruct) (unit : cstring) : PipeStruct :=
  { io with chan := io.chan.record (.write unit) }

/-- The function `engine_send_queue` (engine.cpp 363-365); `text` is what the format and its
arguments print. -/
def engine_send_queue (w : world) (_engine : engine_ref) (text : cstring) : Option world :=
  match vsprintf w.szQueueString w.nQueuePtr text with
  | none => none
  | some (buf, n) => some { w with szQueueString := buf, nQueuePtr := w.nQueuePtr + n }

/-- The function `engine_send` (engine.cpp 367-372). -/
def engine_send (w : world) (engine : engine_ref) (text : cstring) : Option world :=
  match vsprintf w.szQueueString w.nQueuePtr text with
  | none => none
  | some (buf, _) =>
    let w1 := { w with szQueueString := buf }
    let w2 := w1.assign engine
      { w1.deref engine with io := (w1.deref engine).io.LineOutput (c_str w1.szQueueString) }
    some { w2 with nQueuePtr := 0 }

/-- A run of `engine_send_queue` calls, one per text, in order. -/
def send_queue_all (w : world) (engine : engine_ref) : List cstring → Option world
  | [] => some w
  | q :: qs => (engine_send_queue w engine q).bind (fun w1 => send_queue_all w1 engine qs)

/-- Modelled from the spec: `PipeStruct::Close`, the release of the transport. -/
def PipeStruct.Close (io : PipeStruct) : PipeStruct :=
  { io with chan := io.chan.record .close }

/-- Modelled from the spec: `PipeStruct::Kill`, the forced termination of the process. -/
def PipeStruct.Kill (io : PipeStruct) : PipeStruct :=
  { io with active := false, chan := io.chan.record .kill }

/-- Modelled from the spec: `PipeStruct::Active`. -/
def PipeStruct.Active (io : PipeStruct) : Bool := io.active

/-- Modelled from the spec: `PipeStruct::EOF_`. -/
def PipeStruct.EOF_ (io : PipeStruct) : Bool := io.eof

/-- Modelled from the spec: `PipeStruct::Open`. The operating system either starts the
process and gives a handle and a channel to it, or fails; the buffered reader starts
empty. -/
def PipeStruct.Open (io : PipeStruct) (_command : cstring) (started : Option (Nat × channel)) :
    PipeStruct :=
  match started with
  | some (h, c) => { hProcess := h, active := true, eof := false, lines := [], chan := c }
  | none => { io with active := false }

/-- Modelled from the spec: one read of the pipe by the buffered line reader, when the
buffer holds no line: the lines the read completes are buffered; at end-of-stream the
flag is set; on an empty pipe that is still open nothing happens. -/
def PipeStruct.ReadInput (io : PipeStruct) : PipeStruct :=
  match io.chan.pipe with
  | c :: rest => { io with lines := io.lines ++ c, chan := { io.chan with pipe := rest } }
  | [] => if io.chan.pipe_eof then { io with eof := true } else io

/-- Modelled from the spec: `PipeStruct::GetBuffer`, the non-blocking "fetch a line":
whether a line was available and, if so, the line. -/
def PipeStruct.GetBuffer (io : PipeStruct) : Bool × cstring × PipeStruct :=
  let io1 := if io.lines.isEmpty then io.ReadInput else io
  match io1.lines with
  | l :: rest => (true, l, { io1 with lines := rest, chan := io1.chan.record (.read (some l)) })
  | [] => (false, [], io1)

/-- The wait of `LineInput` on the reads the pipe will deliver. -/
def PipeStruct.LineInput_wait (io : PipeStruct) : List (List cstring) → Option (cstring × PipeStruct)
  | [] =>
    if io.chan.pipe_eof then
      some ([], { io with eof := true,
                          chan := { io.chan with pipe := [], log := io.chan.log ++ [.read none] } })
    else none
  | [] :: rest => PipeStruct.LineInput_wait io rest
  | (l :: ls) :: rest =>
    some (l, { io with lines := ls,
                       chan := { io.chan with pipe := rest, log := io.chan.log ++ [.read (some l)] } })

/-- Modelled from the spec: `PipeStruct::LineInput`, the blocking read ("suspends the
caller until a complete line is available or the stream ends"): `none` when neither
ever happens. Once the end-of-stream flag is set it returns at once. -/
def PipeStruct.LineInput (io : PipeStruct) : Option (cstring × PipeStruct) :=
  if io.eof then some ([], { io with chan := io.chan.record (.read none) })
  else
    match io.lines with
    | l :: rest => some (l, { io with lines := rest, chan := io.chan.record (.read (some l)) })
    | [] => io.LineInput_wait io.chan.pipe

/-- The library call `SetPriorityClass(hProcess, cls)`. -/
def SetPriorityClass (io : PipeStruct) (cls : Nat) : PipeStruct :=
  { io with chan := { io.chan with priority_class := cls } }

/-- The function `GetWin32Priority` (engine.cpp 341-356). -/
def GetWin32Priority (nice : Int) : Nat :=
  if nice < -15 then 0x00000080
  else if nice < 0 then 0x00008000
  else if nice = 0 then 0x00000020
  else if nice < 15 then 0x00004000
  else 0x00000040

/-- The function `engine_set_nice_value` (engine.cpp 358-361). -/
def engine_set_nice_value (w : world) (engine : engine_ref) (value : Int) : world :=
  w.assign engine
    { w.deref engine with io := SetPriorityClass (w.deref engine).io (GetWin32Priority value) }

/-- The function `engine_active` (engine.cpp 408-410). -/
def engine_active (F : engine_flags) (engine : engine_t) : Bool :=
  (engine.state &&& F.ENGINE_ACTIVE) != 0

/-- The function `engine_eof` (engine.cpp 412-414). -/
def engine_eof (F : engine_flags) (engine : engine_t) : Bool :=
  (engine.state &&& F.ENGINE_EOF) != 0

/-- The function `engine_get` (engine.cpp 431-439): the line read and the memory after the call. -/
def engine_get (F : engine_flags) (w : world) (engine : engine_ref) : Option (cstring × world) :=
  match (w.deref engine).io.LineInput with
  | none => none
  | some (szLineStr, io1) =>
    if io1.EOF_ then
      some (szLineStr,
        w.assign engine { io := io1, state := (w.deref engine).state ||| F.ENGINE_EOF })
    else
      some (szLineStr, w.assign engine { w.deref engine with io := io1 })

/-- The function `engine_get_non_blocking` (engine.cpp 416-429): the value returned, the line, and the
memory after the call. -/
def engine_get_non_blocking (F : engine_flags) (w : world) (engine : engine_ref) :
    Bool × cstring × world :=
  if engine_eof F (w.deref engine) then (false, [], w)
  else
    match (w.deref engine).io.GetBuffer with
    | (true, szLineStr, io1) => (true, szLineStr, w.assign engine { w.deref engine with io := io1 })
    | (false, _, io1) =>
      if io1.EOF_ then
        (false, [], w.assign engine { io := io1, state := (w.deref engine).state ||| F.ENGINE_EOF })
      else
        (false, [], w.assign engine { w.deref engine with io := io1 })

/-- The drain loop of `engine_close` (engine.cpp 378-380): the condition tests `engine`,
the body reads from the global `Engine`. -/
def engine_close_loop (F : engine_flags) (engine : engine_ref) : Nat → world → Option world
  | 0, _ => none
  | fuel + 1, w =>
    if engine_eof F (w.deref engine) then some w
    else
      match engine_get F w .Engine with
      | none => none
      | some (_, w1) => engine_close_loop F engine fuel w1

/-- The function `engine_close` (engine.cpp 374-382). -/
def engine_close (F : engine_flags) (fuel : Nat) (w : world) (engine : engine_ref) : Option world :=
  let w1 := w.assign engine { w.deref engine with io := (w.deref engine).io.Close }
  match engine_close_loop F engine fuel w1 with
  | none => none
  | some w2 => some (w2.assign engine { w2.deref engine with io := (w2.deref engine).io.Kill })

/-- The function `engine_open` (engine.cpp 384-406). `cwd_ok` is whether `_getcwd` succeeds (a
failure is fatal: `none`), `started` what the operating system gives to `Open`.
Changing directory and setting the affinity touch nothing of the memory modelled. -/
def engine_open (F : engine_flags) (opt : options) (cwd_ok : Bool)
    (started : Option (Nat × channel)) (w : world) (engine : engine_ref) : Option world :=
  let w1 := w.assign engine { w.deref engine with state := 0 }
  if !cwd_ok then none
  else
    let w2 := w1.assign engine
      { w1.deref engine with io := (w1.deref engine).io.Open opt.EngineCommand started }
    if (w2.deref engine).io.Active then
      let w3 := w2.assign engine
        { w2.deref engine with state := (w2.deref engine).state ||| F.ENGINE_ACTIVE }
      if opt.UseNice then some (engine_set_nice_value w3 engine opt.NiceValue)
      else some w3
    else some w2

/-- One call of an operation on the engine `engine` points to: the memory afterwards. -/
def call (F : engine_flags) (fuel : Nat) : engine_call → world → engine_ref → Option world
  | .get, w, engine => (engine_get F w engine).map (fun r => r.2)
  | .get_non_blocking, w, engine => some (engine_get_non_blocking F w engine).2.2
  | .send text, w, engine => engine_send w engine text
  | .send_queue text, w, engine => engine_send_queue w engine text
  | .set_nice_value value, w, engine => some (engine_set_nice_value w engine value)
  | .close, w, engine => engine_close F fuel w engine

end Win32

/-! ## The POSIX half (`#ifndef _WIN32` branch) -/

namespace Posix

/-- Modelled from the spec: the struct `io_t` of io.h. engine.cpp sets `in_fd`, `out_fd`
and `name`; the rest is the line-buffering collaborator: `in_eof` (end-of-stream was
read), `in_lines` (the complete lines buffered), `out_buffer` (the pending-queue buffer)
and the channel the descriptors are bound to. -/
structure io_t where
  in_fd : Int
  out_fd : Int
  name : String
  in_eof : Bool
  in_lines : List cstring
  out_buffer : cstring
  chan : channel
  deriving DecidableEq, Repr

/-- The struct `engine_t` (engine.h) as engine.cpp uses it: `io`, `state` and `pid`. -/
structure engine_t where
  io : io_t
  state : Nat
  pid : Int
  deriving DecidableEq, Repr

/-- Modelled from the spec: `io_init`, which starts the line buffers empty. -/
def io_init (io : io_t) : io_t :=
  { io with in_eof := false, in_lines := [], out_buffer := [] }

/-- Modelled from the spec: `io_close`, the release of the transport. -/
def io_close (io : io_t) : io_t :=
  { io with out_fd := -1, chan := io.chan.record .close }

/-- Modelled from the spec: `io_line_ready`, the non-blocking "is a line ready". It
also answers yes at end-of-stream: the loop of `engine_get` waits for it before it
tests for end-of-stream. -/
def io_line_ready (io : io_t) : Bool :=
  io.in_eof || !io.in_lines.isEmpty

/-- Modelled from the spec: `io_get_update`, one blocking read of the pipe: the lines it
completes are buffered, end-of-stream sets `in_eof`; `none` when the pipe is empty and
stays open (the read never returns). -/
def io_get_update (io : io_t) : Option io_t :=
  match io.chan.pipe with
  | c :: rest => some { io with in_lines := io.in_lines ++ c, chan := { io.chan with pipe := rest } }
  | [] => if io.chan.pipe_eof then some { io with in_eof := true } else none

/-- Modelled from the spec: `io_get_line`, the "fetch a line": true and the first
buffered line, or false at end-of-stream. -/
def io_get_line (io : io_t) : Bool × cstring × io_t :=
  match io.in_lines with
  | l :: rest => (true, l, { io with in_lines := rest, chan := io.chan.record (.read (some l)) })
  | [] => (false, [], { io with chan := io.chan.record (.read none) })

/-- Modelled from the spec: `io_send_queue` ("append to the pending-queue buffer without
transmitting"). -/
def io_send_queue (io : io_t) (text : cstring) : io_t :=
  { io with out_buffer := io.out_buffer ++ text }

/-- Modelled from the spec: `io_send` ("transmit immediately; append a line terminator if
absent"; the queued content goes first, as one unit with the line). -/
def io_send (io : io_t) (text : cstring) : io_t :=
  let line := if text.getLast? = some LF then text else text ++ [LF]
  { io with out_buffer := [], chan := io.chan.record (.write (io.out_buffer ++ line)) }

/-- The library call `strtok(s, " ")` on the rest `s` of the string: `none` for NULL,
else the token and the rest after the delimiter that ends it. -/
def strtok (s : List Char) : Option (cstring × List Char) :=
  let s1 := s.dropWhile (fun c => c == ' ')
  if s1.isEmpty then none
  else some (s1.takeWhile (fun c => c != ' '), (s1.dropWhile (fun c => c != ' ')).drop 1)

/-- The loop of `engine_open` that fills `argv` (engine.cpp 78-80). -/
def argv_loop : Nat → List Char → List cstring
  | 0, _ => []
  | fuel + 1, s =>
    match strtok s with
    | none => []
    | some (ptr, rest) => ptr :: argv_loop fuel rest

/-- What the system calls of `engine_open` give: the two `pipe` calls (the descriptor
pair, or `none` for -1), `fork`, `chdir`, and the channel the new pipes form. -/
structure os_open where
  pipe_from : Option (Int × Int)
  pipe_to : Option (Int × Int)
  fork : Int
  chdir_ok : Bool
  chan : channel
  deriving DecidableEq, Repr

/-- How a call of `engine_open` ends: `my_fatal`, undefined behaviour (more arguments
than `argv[256]` holds), in the child the call `execvp(argv[0], argv)` at the given nice
increment, in the parent the engine filled in. -/
inductive open_result where
  | fatal (msg : String)
  | undefined
  | child_exec (argv : List cstring) (nice : Option Int)
  | parent (engine : engine_t)
  deriving DecidableEq, Repr

/-- The function `engine_open` (engine.cpp 51-167). -/
def engine_open (F : engine_flags) (opt : options) (os : os_open) (engine : engine_t) :
    open_result :=
  let dir := opt.EngineDir
  let command := opt.EngineCommand
  if command.length ≥ StringSize then .fatal "engine_open(): buffer overflow"
  else
    let argv := argv_loop (command.length + 1) command
    if argv.length > 255 then .undefined
    else
      match os.pipe_from with
      | none => .fatal "engine_open(): pipe()"
      | some from_engine =>
        match os.pipe_to with
        | none => .fatal "engine_open(): pipe()"
        | some to_engine =>
          if os.fork = -1 then .fatal "engine_open(): fork()"
          else if os.fork = 0 then
            if !dir.isEmpty && !os.chdir_ok then .fatal "engine_open(): chdir()"
            else .child_exec argv (if opt.UseNice then some opt.NiceValue else none)
          else
            .parent
              { io := io_init { engine.io with in_fd := from_engine.1, out_fd := to_engine.2,
                                               name := "Engine", chan := os.chan },
                pid := os.fork,
                state := engine.state ||| F.ENGINE_ACTIVE }

/-- The function `engine_active` (engine.cpp 171-173). -/
def engine_active (F : engine_flags) (engine : engine_t) : Bool :=
  (engine.state &&& F.ENGINE_ACTIVE) != 0

/-- The function `engine_eof` (engine.cpp 177-179). -/
def engine_eof (F : engine_flags) (engine : engine_t) : Bool :=
  (engine.state &&& F.ENGINE_EOF) != 0

/-- The function `engine_set_nice_value` (engine.cpp 183-185): `setpriority` on the process `pid`. -/
def engine_set_nice_value (engine : engine_t) (value : Int) : engine_t :=
  { engine with io := { engine.io with chan := { engine.io.chan with nice := value } } }

/-- The loop `while (!io_line_ready(engine->io)) io_get_update(engine->io);` of
`engine_get` (engine.cpp 223-225). -/
def engine_get_wait : Nat → io_t → Option io_t
  | 0, _ => none
  | fuel + 1, io =>
    if io_line_ready io then some io
    else
      match io_get_update io with
      | none => none
      | some io1 => engine_get_wait fuel io1

/-- The function `engine_get` (engine.cpp 217-230): the line read and the engine after the call. -/
def engine_get (F : engine_flags) (fuel : Nat) (engine : engine_t) : Option (cstring × engine_t) :=
  match engine_get_wait fuel engine.io with
  | none => none
  | some io1 =>
    match io_get_line io1 with
    | (true, string, io2) => some (string, { engine with io := io2 })
    | (false, string, io2) =>
      some (string, { engine with io := io2, state := engine.state ||| F.ENGINE_EOF })

/-- The function `engine_get_non_blocking` (engine.cpp 205-213): the value returned, the line and the
engine after the call. -/
def engine_get_non_blocking (F : engine_flags) (fuel : Nat) (engine : engine_t) :
    Option (Bool × cstring × engine_t) :=
  if io_line_ready engine.io then
    match engine_get F fuel engine with
    | none => none
    | some (string, e1) => some (true, string, e1)
  else some (false, [], engine)

/-- The drain loop of `engine_close` (engine.cpp 197-199); `fuel` is for each
`engine_get`, the counter for the loop itself. -/
def engine_close_loop (F : engine_flags) (fuel : Nat) : Nat → engine_t → Option engine_t
  | 0, _ => none
  | k + 1, engine =>
    if engine_eof F engine then some engine
    else
      match engine_get F fuel engine with
      | none => none
      | some (_, e1) => engine_close_loop F fuel k e1

/-- The function `engine_close` (engine.cpp 190-201). -/
def engine_close (F : engine_flags) (fuel : Nat) (engine : engine_t) : Option engine_t :=
  engine_close_loop F fuel fuel { engine with io := io_close engine.io }

/-- The function `engine_send` (engine.cpp 234-251); `text` is what the format and its arguments
print into `string[StringSize]` (more than fits is undefined behaviour: `none`). -/
def engine_send (engine : engine_t) (text : cstring) : Option engine_t :=
  if text.length + 1 ≤ StringSize then some { engine with io := io_send engine.io text }
  else none

/-- The function `engine_send_queue` (engine.cpp 255-272). -/
def engine_send_queue (engine : engine_t) (text : cstring) : Option engine_t :=
  if text.length + 1 ≤ StringSize then some { engine with io := io_send_queue engine.io text }
  else none

/-- One call of an operation on an engine: the engine afterwards. -/
def call (F : engine_flags) (fuel : Nat) : engine_call → engine_t → Option engine_t
  | .get, engine => (engine_get F fuel engine).map (fun r => r.2)
  | .get_non_blocking, engine => (engine_get_non_blocking F fuel engine).map (fun r => r.2.2)
  | .send text, engine => engine_send engine text
  | .send_queue text, engine => engine_send_queue engine text
  | .set_nice_value value, engine => some (engine_set_nice_value engine value)
  | .close, engine => engine_close F fuel engine

end Posix

/-! ## Predicates and example inputs -/

/-- Example values of the two masks: two different bits. -/
def sample_flags : engine_flags := { ENGINE_EOF := 1, ENGINE_ACTIVE := 2 }

/-- Example options: the command `engine -x`, no directory, no priority change. -/
def sample_options : options :=
  { EngineDir := [], EngineCommand := "engine -x".toList, UseNice := false, NiceValue := 0,
    Affinity := -1 }

/-- A channel on which nothing has happened yet: it holds the given reads. -/
def fresh_channel (pipe : List (List cstring)) (pipe_eof : Bool) : channel :=
  { pipe := pipe, pipe_eof := pipe_eof, log := [], nice := 0, priority_class := 0x20 }

namespace Win32

/-- The queue holds `acc`: the first `nQueuePtr` characters of the array are `acc`,
which has no NUL, and the array has its `StringSize` characters. -/
def queue_holds (w : world) (acc : cstring) : Prop :=
  w.szQueueString.length = StringSize ∧ acc.length = w.nQueuePtr ∧
    w.szQueueString.take w.nQueuePtr = acc ∧ NUL ∉ acc

/-- An engine whose process runs and whose channel holds the given reads. -/
def fresh_engine (pipe : List (List cstring)) (pipe_eof : Bool) (state : Nat) : engine_t :=
  { io := { hProcess := 1, active := true, eof := false, lines := [],
            chan := fresh_channel pipe pipe_eof },
    state := state }

/-- The lines the transport of an engine still holds: buffered or in the pipe. -/
def held (io : PipeStruct) : List cstring := io.lines ++ io.chan.pipe.flatten

/-- The memory with an empty queue (the static array zero-filled, `nQueuePtr = 0`) and
the two given engines. -/
def start_world (Engine other : engine_t) : world :=
  { nQueuePtr := 0, szQueueString := List.replicate StringSize NUL,
    Engine := Engine, other := other }

end Win32

/-- The state `s1` is the state `s` with at most the ENGINE_EOF mask added. -/
def grows (F : engine_flags) (s s1 : Nat) : Prop := s1 = s ∨ s1 = s ||| F.ENGINE_EOF

/-- Three lines of engine output. -/
def three_lines : List cstring := ["id name X".toList, "uciok".toList, "bye".toList]

namespace Posix

/-- An engine whose channel holds the given reads, with nothing buffered yet. -/
def fresh_engine (pipe : List (List cstring)) (pipe_eof : Bool) (state : Nat) : engine_t :=
  { io := { in_fd := 3, out_fd := 4, name := "Engine", in_eof := false, in_lines := [],
            out_buffer := [], chan := fresh_channel pipe pipe_eof },
    state := state, pid := 100 }

/-- The lines the transport of an engine still holds: buffered or in the pipe. -/
def held (io : io_t) : List cstring := io.in_lines ++ io.chan.pipe.flatten

/-- Tokens written one after the other, each followed by the given number of spaces. -/
def spaced : List (cstring × Nat) → List Char
  | [] => []
  | (t, gap) :: rest => t ++ List.replicate gap ' ' ++ spaced rest

/-- The command line composed of the given tokens: `lead` spaces, then the tokens, each
followed by its number of spaces. -/
def space_separated (lead : Nat) (ts : List (cstring × Nat)) : List Char :=
  List.replicate lead ' ' ++ spaced ts

/-- System calls of `engine_open` that all succeed, in the child (`fork` gives 0). -/
def child_os : os_open :=
  { pipe_from := some (3, 5), pipe_to := some (6, 4), fork := 0, chdir_ok := true,
    chan := fresh_channel [] false }

/-- System calls of `engine_open` that all succeed, in the parent (`fork` gives the
child's pid 100). -/
def sample_os (pipe : List (List cstring)) (pipe_eof : Bool) : os_open :=
  { pipe_from := some (3, 5), pipe_to := some (6, 4), fork := 100, chdir_ok := true,
    chan := fresh_channel pipe pipe_eof }

end Posix

/-! ## The book merge utility (book_merge.c) -/

namespace BookMerge

/-- The struct `entry_t`: `key` is a `uint64`, the other four fields are `uint16`. -/
structure entry_t where
  key : Nat
  move : Nat
  count : Nat
  n : Nat
  sum : Nat
  deriving DecidableEq, Repr

/-- The struct `book_t`: the bytes of the file behind `file`, and `size`. -/
structure book_t where
  file : List Nat
  size : Nat
  deriving DecidableEq, Repr

/-- The function `book_open` for reading (book_merge.c 305-318) on a file with the given bytes:
`size` is the length of the file divided by 16. -/
def book_open (content : List Nat) : book_t :=
  { file := content, size := content.length / 16 }

/-- The loop of `read_integer` (book_merge.c 378-393) with `count` bytes still to read at
position `pos`: `fgetc` at the end of the file ends in `my_fatal` (`none`). -/
def read_integer_loop : Nat → List Nat → Nat → Nat → Option (Nat × Nat)
  | 0, _, pos, n => some (n, pos)
  | count + 1, file, pos, n =>
    match file[pos]? with
    | none => none
    | some b => read_integer_loop count file (pos + 1) (((n <<< 8) % 2 ^ 64) ||| b)

/-- The function `read_integer` (book_merge.c 368-396): the integer read and the position after it. -/
def read_integer (file : List Nat) (pos : Nat) (size : Nat) : Option (Nat × Nat) :=
  read_integer_loop size file pos 0

/-- The function `write_integer` (book_merge.c 400-418): the bytes it puts out, `fputc` succeeding;
the first one is for `i = size - 1`. -/
def write_integer : Nat → Nat → List Nat
  | 0, _ => []
  | i + 1, n => ((n >>> (i * 8)) &&& 0xFF) :: write_integer i n

/-- The function `read_entry` (book_merge.c 328-348): `some none` for FALSE, `some (some entry)` for
TRUE, `none` when it does not return (`my_fatal`, or the `int` product `n*16`
overflows). The four short fields are `uint16`. -/
def read_entry (book : book_t) (n : Nat) : Option (Option entry_t) :=
  if n ≥ book.size then some none
  else if n * 16 ≥ 2 ^ 31 then none
  else
    match read_integer book.file (n * 16) 8 with
    | none => none
    | some (key, p1) =>
      match read_integer book.file p1 2 with
      | none => none
      | some (move, p2) =>
        match read_integer book.file p2 2 with
        | none => none
        | some (count, p3) =>
          match read_integer book.file p3 2 with
          | none => none
          | some (nn, p4) =>
            match read_integer book.file p4 2 with
            | none => none
            | some (sum, _) =>
              some (some { key := key, move := move % 2 ^ 16, count := count % 2 ^ 16,
                           n := nn % 2 ^ 16, sum := sum % 2 ^ 16 })

/-- The function `write_entry` (book_merge.c 352-362): the bytes of the output file after the call. -/
def write_entry (out : List Nat) (entry : entry_t) : List Nat :=
  out ++ write_integer 8 entry.key ++ write_integer 2 entry.move ++
    write_integer 2 entry.count ++ write_integer 2 entry.n ++ write_integer 2 entry.sum

/-- The variables of the merge loop of `book_merge`; `out` is the bytes of the output
file. -/
structure merge_state where
  i1 : Nat
  i2 : Nat
  e1 : entry_t
  e2 : entry_t
  skip : Nat
  out : List Nat
  deriving DecidableEq, Repr

/-- The loop `do { b = read_entry(book,e,i); } while (b && e->key==U64(0x0) && (++i));`
(book_merge.c 228-234): the values of `b`, `e` and `i` after it. -/
def next_entry (book : book_t) : Nat → entry_t → Nat → Option (Bool × entry_t × Nat)
  | 0, _, _ => none
  | fuel + 1, e, i =>
    match read_entry book i with
    | none => none
    | some none => some (false, e, i)
    | some (some e') =>
      if e'.key = 0 then
        if i + 1 ≠ 0 then next_entry book fuel e' (i + 1) else some (true, e', i + 1)
      else some (true, e', i)

/-- The merge loop `while (TRUE) { ... }` of `book_merge` (book_merge.c 226-272): the
variables at the `break`. `fuel` is for each of the two inner loops, the counter for the
loop itself. -/
def merge_loop (In1 In2 : book_t) (fuel : Nat) : Nat → merge_state → Option merge_state
  | 0, _ => none
  | k + 1, st =>
    match next_entry In1 fuel st.e1 st.i1 with
    | none => none
    | some (b1, e1, i1) =>
      match next_entry In2 fuel st.e2 st.i2 with
      | none => none
      | some (b2, e2, i2) =>
        if !b1 && !b2 then
          some { st with i1 := i1, i2 := i2, e1 := e1, e2 := e2 }
        else if b1 && !b2 then
          merge_loop In1 In2 fuel k
            { st with i1 := i1 + 1, i2 := i2, e1 := e1, e2 := e2, out := write_entry st.out e1 }
        else if b2 && !b1 then
          merge_loop In1 In2 fuel k
            { st with i1 := i1, i2 := i2 + 1, e1 := e1, e2 := e2, out := write_entry st.out e2 }
        else if e1.key < e2.key then
          merge_loop In1 In2 fuel k
            { st with i1 := i1 + 1, i2 := i2, e1 := e1, e2 := e2, out := write_entry st.out e1 }
        else if e1.key > e2.key then
          merge_loop In1 In2 fuel k
            { st with i1 := i1, i2 := i2 + 1, e1 := e1, e2 := e2, out := write_entry st.out e2 }
        else
          merge_loop In1 In2 fuel k
            { st with i1 := i1, i2 := i2 + 1, e1 := e1, e2 := e2, skip := st.skip + 1 }

/-- The variables when the merge loop is entered: `skip = 0`, `i1 = 0`, `i2 = 0`; `e1`
and `e2` are not initialised, and the output file holds the header. -/
def merge_start (e1 e2 : entry_t) (header : List Nat) : merge_state :=
  { i1 := 0, i2 := 0, e1 := e1, e2 := e2, skip := 0, out := header }

/-- The entries of a book: what `read_entry` gives for `n = 0 .. size - 1`. -/
def book_entries (book : book_t) : List entry_t :=
  (List.range book.size).filterMap (fun n => (read_entry book n).join)

/-- The book holds the entries `E`: it has as many, and `read_entry` returns them. -/
def holds (book : book_t) (E : List entry_t) : Prop :=
  book.size = E.length ∧ ∀ n, read_entry book n = some E[n]?

/-- The entries are sorted by key in non-decreasing order. -/
def sorted_by_key (E : List entry_t) : Prop := E.Pairwise (fun a b => a.key ≤ b.key)

/-- The entry has a non-zero key. -/
def nonzero (e : entry_t) : Bool := e.key != 0

/-- The 16 bytes `write_entry` puts out for an entry. -/
def entry_bytes (e : entry_t) : List Nat := write_entry [] e

/-- The merge of two lists of entries with non-zero keys, as the loop does it: the
entries written and the number of entries skipped. -/
def merge_entries : List entry_t → List entry_t → List entry_t × Nat
  | [], l2 => (l2, 0)
  | a :: l1, [] => (a :: l1, 0)
  | a :: l1, b :: l2 =>
    if a.key < b.key then
      ((a :: (merge_entries l1 (b :: l2)).1), (merge_entries l1 (b :: l2)).2)
    else if a.key > b.key then
      ((b :: (merge_entries (a :: l1) l2).1), (merge_entries (a :: l1) l2).2)
    else ((merge_entries (a :: l1) l2).1, (merge_entries (a :: l1) l2).2 + 1)
termination_by l1 l2 => l1.length + l2.length

/-- The fields of the entry are in the range of their types: `uint64` for the key,
`uint16` for the others. -/
def entry_ok (e : entry_t) : Prop :=
  e.key < 2 ^ 64 ∧ e.move < 2 ^ 16 ∧ e.count < 2 ^ 16 ∧ e.n < 2 ^ 16 ∧ e.sum < 2 ^ 16

/-- An example entry. -/
def sample_entry : entry_t :=
  { key := 0x463b96181691fc9c, move := 0x0e1c, count := 1, n := 0xfffe, sum := 0x00ff }

/-- The entry all of whose fields are 0. -/
def zero_entry : entry_t := { key := 0, move := 0, count := 0, n := 0, sum := 0 }

/-- The bytes of an example book: a record with key 0 and entries with keys 1, 3, 3. -/
def sample_book_1 : List Nat :=
  entry_bytes zero_entry ++ entry_bytes { zero_entry with key := 1, move := 10 } ++
    entry_bytes { zero_entry with key := 3, move := 11 } ++
    entry_bytes { zero_entry with key := 3, move := 12 }

/-- The bytes of a second example book: a record with key 0 and entries with keys 2, 3,
4, and five bytes that make no entry. -/
def sample_book_2 : List Nat :=
  entry_bytes zero_entry ++ entry_bytes { zero_entry with key := 2, move := 20 } ++
    entry_bytes { zero_entry with key := 3, move := 21 } ++
    entry_bytes { zero_entry with key := 4, move := 22 } ++ [1, 2, 3, 4, 5]

/-- The bytes of a book of 2^27 + 1 entries whose bytes are all 0: 2 GiB and 16 bytes. -/
def big_book : List Nat := List.replicate (2 ^ 31 + 16) 0


/-- The library call `strtok(s, "\x0a")` on the rest `s` of the string: `none` for NULL,
else the token and the rest after the delimiter that ends it. -/
def strtok (s : List Char) : Option (cstring × List Char) :=
  let s1 := s.dropWhile (fun c => c == LF)
  if s1.isEmpty then none
  else some (s1.takeWhile (fun c => c != LF), (s1.dropWhile (fun c => c != LF)).drop 1)

/-- The library call `strstr(haystack, needle)`: whether it is not NULL, that is whether
`needle` occurs in `haystack` as a run of consecutive characters. -/
def strstr : cstring → cstring → Bool
  | [], needle => needle.isEmpty
  | c :: haystack, needle => needle.isPrefixOf (c :: haystack) || strstr haystack needle

/-- The loop `while(variant){ ... }` of `variants_merge` (book_merge.c 81-91) over the
rest of one list: `*variants` after it. -/
def variants_loop : Nat → List Char → cstring → cstring
  | 0, _, variants => variants
  | fuel + 1, variants_list, variants =>
    match strtok variants_list with
    | none => variants
    | some (variant, rest) =>
      if !strstr variants variant then
        variants_loop fuel rest ((if variants ≠ [] then variants ++ [LF] else variants) ++ variant)
      else variants_loop fuel rest variants

/-- The function `variants_merge` (book_merge.c 59-98): the string `*variants`. -/
def variants_merge (variants1 variants2 : cstring) : cstring :=
  variants_loop (variants2.length + 1) variants2
    (variants_loop (variants1.length + 1) variants1 [])

end BookMerge

/-! ## The option file (main.cpp) -/

namespace Main

/-- The library call `strchr(s, c)` for a character `c` other than NUL, on the characters
of the array from index `i` on: the index of the first `c` before the terminating NUL,
or `none` for NULL. -/
def strchr : List Char → Char → Nat → Option Nat
  | [], _, _ => none
  | x :: xs, c, i => if x = c then some i else if x = NUL then none else strchr xs c (i + 1)

/-- The loop `while (*name == ' ') name++;` of `parse_line`, on the characters of the
array from index `name` on: the index after it. -/
def skip_spaces : List Char → Nat → Nat
  | [], name => name
  | x :: xs, name => if x = ' ' then skip_spaces xs (name + 1) else name

/-- The loop `while (ptr > name && ptr[-1] == ' ') ptr--;` of `parse_line`: the index
`ptr` after it. -/
def trim_back (buf : List Char) (name : Nat) : Nat → Nat
  | 0 => 0
  | ptr + 1 => if name < ptr + 1 ∧ buf.getD ptr NUL = ' ' then trim_back buf name ptr else ptr + 1

/-- The library call `strlen(s)` on the characters of the array from the index of `s`
on. -/
def strlen : List Char → Nat
  | [] => 0
  | x :: xs => if x = NUL then 0 else strlen xs + 1

/-- The C string that starts at index `p` of the array. -/
def c_string_at (buf : List Char) (p : Nat) : cstring :=
  (buf.drop p).takeWhile (fun c => c != NUL)

/-- The statements `ptr = strchr(line,c); if (ptr != NULL) *ptr = '\0';` of `parse_line`
(main.cpp 294-298): the array after them. -/
def remove_comment (buf : List Char) (c : Char) : List Char :=
  match strchr buf c 0 with
  | some ptr => buf.set ptr NUL
  | none => buf

/-- The part of `parse_line` from "split at '='" on (main.cpp 300-333), on the array
after the comments are removed: `none` for false, for true the strings `*name_ptr` and
`*value_ptr` point to. Pointers into the array are indices. -/
def parse_line_split (buf2 : List Char) : Option (cstring × cstring) :=
  match strchr buf2 '=' 0 with
  | none => none
  | some ptr =>
    let value := ptr + 1
    let name := skip_spaces buf2 0
    let ptr1 := trim_back buf2 name ptr
    let buf3 := buf2.set ptr1 NUL
    if buf3.getD name NUL = NUL then none
    else
      let ptr2 := value + strlen (buf3.drop value)
      let value1 := skip_spaces (buf3.drop value) value
      let ptr3 := trim_back buf3 value1 ptr2
      let buf4 := buf3.set ptr3 NUL
      if buf4.getD value1 NUL = NUL then none
      else some (c_string_at buf4 name, c_string_at buf4 value1)

/-- The function `parse_line` (main.cpp 283-334) on the array that holds the C string `line`. -/
def parse_line (line : cstring) : Option (cstring × cstring) :=
  parse_line_split (remove_comment (remove_comment (line ++ [NUL]) ';') '#')

/-- The line cut at the first ';' or '#'. -/
def cut_comment (line : cstring) : cstring :=
  line.takeWhile (fun c => c != ';' && c != '#')

/-- The text without its trailing spaces. -/
def strip_trailing (s : cstring) : cstring :=
  (s.reverse.dropWhile (fun c => c == ' ')).reverse

/-- The text without its leading and trailing spaces. -/
def strip_spaces (s : cstring) : cstring :=
  strip_trailing (s.dropWhile (fun c => c == ' '))

/-- What the claim says of `parse_line`: the line is cut at the first ';' or '#'; it must
contain an '='; name and value are the texts before and after the first '=', with
leading and trailing spaces removed, and neither may be empty. -/
def parse_line_spec (line : cstring) : Option (cstring × cstring) :=
  let l := cut_comment line
  if '=' ∈ l then
    let name := strip_spaces (l.takeWhile (fun c => c != '='))
    let value := strip_spaces ((l.dropWhile (fun c => c != '=')).drop 1)
    if name ≠ [] ∧ value ≠ [] then some (name, value) else none
  else none

end Main

/-! ## The queue of the OS-native half -/

namespace Win32

theorem c_str_append_NUL (t rest : List Char) (h : NUL ∉ t) : c_str (t ++ NUL :: rest) = t := by
  unfold c_str
  induction t with
  | nil => simp [List.takeWhile]
  | cons a t ih =>
    have ha : a ≠ NUL := fun e => h (by simp [e])
    have ht : NUL ∉ t := fun e => h (by simp [e])
    have hb : (a != NUL) = true := by simpa using ha
    simp [List.takeWhile, hb, ih ht]

theorem vsprintf_fits (buf : List Char) (pos : Nat) (t : cstring)
    (h : pos + t.length + 1 ≤ buf.length) :
    vsprintf buf pos t
      = some (buf.take pos ++ t ++ NUL :: buf.drop (pos + t.length + 1), t.length) := by
  simp [vsprintf, h]

theorem take_written (buf : List Char) (pos : Nat) (t rest : List Char) (h : pos ≤ buf.length) :
    (buf.take pos ++ t ++ NUL :: rest).take (pos + t.length) = buf.take pos ++ t := by
  have : (buf.take pos ++ t).length = pos + t.length := by simp [h]
  rw [← this, List.take_left']
  rfl

theorem engine_send_queue_holds (w : world) (engine : engine_ref) (acc q : cstring)
    (hw : queue_holds w acc) (hq : NUL ∉ q) (hfit : (acc ++ q).length + 1 ≤ StringSize) :
    ∃ w1, engine_send_queue w engine q = some w1 ∧ queue_holds w1 (acc ++ q) ∧
      w1.Engine = w.Engine ∧ w1.other = w.other := by
  obtain ⟨hlen, hacc, htake, hnul⟩ := hw
  have hfit1 : w.nQueuePtr + q.length + 1 ≤ w.szQueueString.length := by
    rw [hlen, ← hacc]; simpa using hfit
  have hv := vsprintf_fits _ _ _ hfit1
  unfold engine_send_queue
  rw [hv]
  refine ⟨_, rfl, ⟨?_, ?_, ?_, ?_⟩, rfl, rfl⟩
  · simp only [List.length_append, List.length_take, List.length_cons, List.length_drop]
    omega
  · simp [hacc]
  · show (w.szQueueString.take w.nQueuePtr ++ q ++ NUL :: _).take (w.nQueuePtr + q.length) = _
    rw [take_written _ _ _ _ (by omega), htake]
  · simp [hnul, hq]

theorem send_queue_all_holds (engine : engine_ref) (qs : List cstring) :
    ∀ (w : world) (acc : cstring), queue_holds w acc → (∀ q ∈ qs, NUL ∉ q) →
      (acc ++ qs.flatten).length + 1 ≤ StringSize →
      ∃ w1, send_queue_all w engine qs = some w1 ∧ queue_holds w1 (acc ++ qs.flatten) ∧
        w1.Engine = w.Engine ∧ w1.other = w.other := by
  induction qs with
  | nil => intro w acc hw _ _; exact ⟨w, rfl, by simpa using hw, rfl, rfl⟩
  | cons q qs ih =>
    intro w acc hw hnul hfit
    have hq : NUL ∉ q := hnul q (by simp)
    have hfit1 : (acc ++ q).length + 1 ≤ StringSize := by
      simp only [List.flatten_cons, List.length_append] at hfit ⊢; omega
    obtain ⟨w1, h1, hw1, hE1, hO1⟩ := engine_send_queue_holds w engine acc q hw hq hfit1
    obtain ⟨w2, h2, hw2, hE2, hO2⟩ := ih w1 (acc ++ q) hw1
      (fun x hx => hnul x (by simp [hx])) (by simpa using hfit)
    refine ⟨w2, by simp [send_queue_all, h1, h2], by simpa using hw2, hE2.trans hE1, hO2.trans hO1⟩

theorem engine_send_flushes (w : world) (engine : engine_ref) (acc s : cstring)
    (hw : queue_holds w acc) (hs : NUL ∉ s) (hfit : (acc ++ s).length + 1 ≤ StringSize) :
    ∃ w2, engine_send w engine s = some w2 ∧ w2.nQueuePtr = 0 ∧
      (w2.deref engine).io.chan.log = (w.deref engine).io.chan.log ++ [.write (acc ++ s)] := by
  obtain ⟨hlen, hacc, htake, hnul⟩ := hw
  have hfit1 : w.nQueuePtr + s.length + 1 ≤ w.szQueueString.length := by
    rw [hlen, ← hacc]; simpa using hfit
  have hc : c_str (w.szQueueString.take w.nQueuePtr ++ s ++
      NUL :: w.szQueueString.drop (w.nQueuePtr + s.length + 1)) = acc ++ s := by
    rw [htake]; exact c_str_append_NUL _ _ (by simp [hnul, hs])
  have hv := vsprintf_fits _ _ _ hfit1
  unfold engine_send
  rw [hv]
  refine ⟨_, rfl, rfl, ?_⟩
  cases engine <;>
    simp only [world.assign, world.deref, PipeStruct.LineOutput, channel.record, hc]

/-- The memory at program start: the static array is zero-filled and `nQueuePtr` is 0. -/
theorem queue_holds_start (w : world) (hbuf : w.szQueueString.length = StringSize)
    (hptr : w.nQueuePtr = 0) : queue_holds w [] := by
  refine ⟨hbuf, by simp [hptr], by simp [hptr], by simp⟩

/-- C1 (as amended). Starting from an empty queue, for all C strings `q1 .. qn` and `s`
(no NUL inside) that fit together with the terminating NUL into the `StringSize`
characters of `szQueueString`: the calls `engine_send_queue(q1)`, ..., `engine_send_queue(qn)`
all return and leave both engines, their transports included, as they were (nothing is
handed to the transport), and the following `engine_send(s)` returns, adds exactly one
unit to what the transport of `engine` was handed, namely the plain concatenation
`q1 ++ ... ++ qn ++ s` in call order, and leaves the queue empty again. -/
theorem C1_queued_sends_form_one_unit (w : world) (engine : engine_ref)
    (qs : List cstring) (s : cstring)
    (hbuf : w.szQueueString.length = StringSize) (hptr : w.nQueuePtr = 0)
    (hqs : ∀ q ∈ qs, NUL ∉ q) (hs : NUL ∉ s)
    (hfit : (qs.flatten ++ s).length + 1 ≤ StringSize) :
    ∃ w1 w2, send_queue_all w engine qs = some w1 ∧
      w1.Engine = w.Engine ∧ w1.other = w.other ∧
      engine_send w1 engine s = some w2 ∧
      (w2.deref engine).io.chan.log
        = (w.deref engine).io.chan.log ++ [.write (qs.flatten ++ s)] ∧
      w2.nQueuePtr = 0 := by
  have hfit1 : (([] : cstring) ++ qs.flatten).length + 1 ≤ StringSize := by
    simp only [List.nil_append, List.length_append] at hfit ⊢; omega
  obtain ⟨w1, h1, hw1, hE, hO⟩ :=
    send_queue_all_holds engine qs w [] (queue_holds_start w hbuf hptr) hqs hfit1
  obtain ⟨w2, h2, hp, hlog⟩ := engine_send_flushes w1 engine ([] ++ qs.flatten) s hw1 hs
    (by simpa using hfit)
  refine ⟨w1, w2, h1, hE, hO, h2, ?_, hp⟩
  have hd : w1.deref engine = w.deref engine := by cases engine <;> simp [world.deref, hE, hO]
  rw [hlog, hd]; simp

/-- C1, witness: the lines "A\n", "B\n" queued and "C\n" sent make the unit "A\nB\nC\n". -/
theorem C1_queued_sends_form_one_unit_witness :
    ∃ w1 w2,
      send_queue_all (start_world (fresh_engine [] false 0) (fresh_engine [] false 0)) .Engine
        ["A\n".toList, "B\n".toList] = some w1 ∧
      w1.Engine = fresh_engine [] false 0 ∧ w1.other = fresh_engine [] false 0 ∧
      engine_send w1 .Engine "C\n".toList = some w2 ∧
      w2.Engine.io.chan.log = [.write "A\nB\nC\n".toList] ∧ w2.nQueuePtr = 0 :=
  C1_queued_sends_form_one_unit
    (start_world (fresh_engine [] false 0) (fresh_engine [] false 0)) .Engine
    ["A\n".toList, "B\n".toList] "C\n".toList
    (by simp [start_world]) rfl (by decide) (by decide) (by decide)

/-- C1, counterexample: `send_queue("A")`, `send_queue("B")`, `send("C")` hand the
transport the unit "ABC", not "A\nB\nC\n"; and a text of `StringSize` characters does
not fit into the queue, so that `engine_send_queue` has no defined result for it. -/
theorem C1_example_unit_is_ABC :
    (∃ w1 w2,
      send_queue_all (start_world (fresh_engine [] false 0) (fresh_engine [] false 0)) .Engine
        ["A".toList, "B".toList] = some w1 ∧
      engine_send w1 .Engine "C".toList = some w2 ∧
      w2.Engine.io.chan.log = [.write "ABC".toList] ∧
      w2.Engine.io.chan.log ≠ [.write "A\nB\nC\n".toList]) ∧
    engine_send_queue (start_world (fresh_engine [] false 0) (fresh_engine [] false 0)) .Engine
      (List.replicate StringSize 'a') = none := by
  constructor
  · obtain ⟨w1, h1, hw1, _, _⟩ := send_queue_all_holds .Engine ["A".toList, "B".toList]
      (start_world (fresh_engine [] false 0) (fresh_engine [] false 0)) []
      (queue_holds_start _ (by simp [start_world]) rfl) (by decide) (by decide)
    obtain ⟨w2, h2, _, hlog⟩ := engine_send_flushes w1 .Engine _ "C".toList hw1 (by decide)
      (by decide)
    have hE : w1.Engine = fresh_engine [] false 0 := by assumption
    have hl : w2.Engine.io.chan.log = [.write "ABC".toList] := by
      have := hlog
      simp only [world.deref, hE] at this
      rw [this]; rfl
    exact ⟨w1, w2, h1, h2, hl, by rw [hl]; decide⟩
  · simp [engine_send_queue, vsprintf, start_world]

end Win32

/-! ## The state bits -/

theorem or_bit_of_and_ne_zero (s k : Nat) (h : s &&& 2 ^ k ≠ 0) : s ||| 2 ^ k = s := by
  have hb : s.testBit k = true := by
    by_contra hc
    apply h
    apply Nat.eq_of_testBit_eq
    intro i
    simp only [Nat.testBit_and, Nat.testBit_two_pow, Nat.zero_testBit]
    by_cases hik : k = i
    · subst hik; simp [hc]
    · simp [hik]
  apply Nat.eq_of_testBit_eq
  intro i
  simp only [Nat.testBit_or, Nat.testBit_two_pow]
  by_cases hik : k = i
  · subst hik; simp [hb]
  · simp [hik]

theorem and_or_ne_zero (s a e : Nat) (h : s &&& a ≠ 0) : (s ||| e) &&& a ≠ 0 := by
  intro hc
  apply h
  apply Nat.eq_of_testBit_eq
  intro i
  have := congrArg (fun n => n.testBit i) hc
  simp only [Nat.testBit_and, Nat.testBit_or, Nat.zero_testBit] at this ⊢
  cases hs : s.testBit i <;> cases ha : a.testBit i <;> simp_all

theorem or_and_self_ne_zero (s e : Nat) (h : e ≠ 0) : (s ||| e) &&& e ≠ 0 := by
  intro hc
  apply h
  apply Nat.eq_of_testBit_eq
  intro i
  have := congrArg (fun n => n.testBit i) hc
  simp only [Nat.testBit_and, Nat.testBit_or, Nat.zero_testBit] at this ⊢
  cases he : e.testBit i <;> simp_all

/-! ## Receiving -/

namespace Win32

/-- The OS-native `engine_get_non_blocking` answers false on an engine at end-of-stream,
whatever its transport holds, and changes nothing. -/
theorem engine_get_non_blocking_after_eof (F : engine_flags) (w : world) (engine : engine_ref)
    (h : engine_eof F (w.deref engine) = true) :
    engine_get_non_blocking F w engine = (false, [], w) := by
  simp [engine_get_non_blocking, h]

end Win32

namespace Posix

/-- C2, the code at the failing input (POSIX half). The child has exited without output;
`engine_get` observes end-of-stream and sets ENGINE_EOF; the two calls of
`engine_get_non_blocking` that follow both return true, not false. -/
theorem C2_posix_get_non_blocking_true_after_eof :
    ∃ e1 e2 e3,
      engine_get sample_flags 2 (fresh_engine [] true 2) = some ([], e1) ∧
      engine_eof sample_flags e1 = true ∧
      engine_get_non_blocking sample_flags 1 e1 = some (true, [], e2) ∧
      engine_eof sample_flags e2 = true ∧
      engine_get_non_blocking sample_flags 1 e2 = some (true, [], e3) :=
  ⟨_, _, _, rfl, rfl, rfl, rfl, rfl⟩

end Posix

/-! ## `engine_get` and the end-of-stream bit -/

/-- C3. With ENGINE_EOF a single bit, on both halves: when the blocking wait of
`engine_get` ends, the call returns the line; it sets the ENGINE_EOF bit when the
transport reports end-of-stream for that read (POSIX: `io_get_line` is false; OS-native:
`EOF_()` is true) and otherwise leaves the state as it was; on an engine whose
ENGINE_EOF bit is already set the state after the call equals the state before. -/
theorem C3_engine_get_sets_eof_bit (F : engine_flags) (k : Nat) (hE : F.ENGINE_EOF = 2 ^ k) :
    (∀ (fuel : Nat) (engine : Posix.engine_t) (io1 : Posix.io_t),
      Posix.engine_get_wait fuel engine.io = some io1 →
      ∃ e1, Posix.engine_get F fuel engine = some ((Posix.io_get_line io1).2.1, e1) ∧
        e1.state = (if (Posix.io_get_line io1).1 then engine.state
                    else engine.state ||| F.ENGINE_EOF) ∧
        (Posix.engine_eof F engine = true → e1.state = engine.state)) ∧
    (∀ (w : Win32.world) (engine : Win32.engine_ref) (line : cstring) (io1 : Win32.PipeStruct),
      (w.deref engine).io.LineInput = some (line, io1) →
      ∃ w1, Win32.engine_get F w engine = some (line, w1) ∧
        (w1.deref engine).state = (if io1.EOF_ then (w.deref engine).state ||| F.ENGINE_EOF
                                   else (w.deref engine).state) ∧
        (Win32.engine_eof F (w.deref engine) = true →
          (w1.deref engine).state = (w.deref engine).state)) := by
  have hstate : ∀ s : Nat, s &&& 2 ^ k ≠ 0 → s ||| 2 ^ k = s :=
    fun s h => or_bit_of_and_ne_zero s k h
  constructor
  · intro fuel engine io1 hwait
    unfold Posix.engine_get
    simp only [hwait]
    rcases hline : Posix.io_get_line io1 with ⟨ok, string, io2⟩
    cases ok
    · refine ⟨_, rfl, by simp, ?_⟩
      intro heof
      have hne : engine.state &&& 2 ^ k ≠ 0 := by
        simpa [Posix.engine_eof, hE] using heof
      simp only [hE]
      exact hstate _ hne
    · exact ⟨_, rfl, by simp, fun _ => rfl⟩
  · intro w engine line io1 hin
    unfold Win32.engine_get
    simp only [hin]
    cases hio : io1.EOF_ <;> simp only [Bool.false_eq_true, if_false, if_true]
    · refine ⟨_, rfl, ?_, ?_⟩ <;> cases engine <;> simp [Win32.world.deref, Win32.world.assign]
    · refine ⟨_, rfl, ?_, ?_⟩ <;> cases engine <;>
        simp only [Win32.world.deref, Win32.world.assign, Win32.engine_eof, hE, if_true,
          bne_iff_ne, ne_eq] <;>
        first
          | rfl
          | exact fun h => hstate _ h

/-- C3, witness: with ENGINE_EOF = 1, `engine_get` on an engine whose child has exited
without output, and on an OS-native engine that holds one line. -/
theorem C3_engine_get_sets_eof_bit_witness :
    (∃ e1, Posix.engine_get sample_flags 2 (Posix.fresh_engine [] true 2) = some ([], e1) ∧
        e1.state = 3 ∧
        (Posix.engine_eof sample_flags (Posix.fresh_engine [] true 2) = true → e1.state = 2)) ∧
    (∃ w1, Win32.engine_get sample_flags
          (Win32.start_world (Win32.fresh_engine [["ok".toList]] true 2)
            (Win32.fresh_engine [] false 0)) .Engine = some ("ok".toList, w1) ∧
        w1.Engine.state = 2 ∧
        (Win32.engine_eof sample_flags (Win32.fresh_engine [["ok".toList]] true 2) = true →
          w1.Engine.state = 2)) :=
  ⟨(C3_engine_get_sets_eof_bit sample_flags 0 rfl).1 2 (Posix.fresh_engine [] true 2) _ rfl,
   (C3_engine_get_sets_eof_bit sample_flags 0 rfl).2
      (Win32.start_world (Win32.fresh_engine [["ok".toList]] true 2)
        (Win32.fresh_engine [] false 0)) .Engine "ok".toList _ rfl⟩

/-! ## `engine_open` -/

namespace Posix

/-- The parent branch of the POSIX `engine_open` only adds ENGINE_ACTIVE to the state the
engine had. -/
theorem engine_open_parent_state (F : engine_flags) (opt : options) (os : os_open)
    (engine e : engine_t) (h : engine_open F opt os engine = .parent e) :
    e.state = engine.state ||| F.ENGINE_ACTIVE := by
  unfold engine_open at h
  simp only at h
  split at h
  · cases h
  · split at h
    · cases h
    · split at h
      · cases h
      · split at h
        · cases h
        · split at h
          · cases h
          · split at h
            · split at h <;> cases h
            · injection h with h
              rw [← h]

/-- After a successful POSIX `engine_open` on an engine whose ENGINE_EOF bit was clear,
with the two masks different bits, the engine is active and not at end-of-stream. -/
theorem engine_open_parent_from_clear (F : engine_flags) (a k : Nat)
    (hA : F.ENGINE_ACTIVE = 2 ^ a) (hE : F.ENGINE_EOF = 2 ^ k) (hak : a ≠ k)
    (opt : options) (os : os_open) (engine e : engine_t)
    (h : engine_open F opt os engine = .parent e) (hclear : engine_eof F engine = false) :
    engine_active F e = true ∧ engine_eof F e = false := by
  have hs := engine_open_parent_state F opt os engine e h
  have hclear1 : engine.state &&& 2 ^ k = 0 := by simpa [engine_eof, hE] using hclear
  constructor
  · simp only [engine_active, hs, hA, bne_iff_ne, ne_eq]
    intro hc
    have := congrArg (fun n => n.testBit a) hc
    simp at this
  · simp only [engine_eof, hs, hA, hE, bne_eq_false_iff_eq]
    apply Nat.eq_of_testBit_eq
    intro i
    have := congrArg (fun n => n.testBit i) hclear1
    simp only [Nat.testBit_and, Nat.testBit_or, Nat.testBit_two_pow, Nat.zero_testBit] at this ⊢
    by_cases hki : k = i
    · subst hki
      have hk : engine.state.testBit k = false := by simpa using this
      simp [hak, hk]
    · simp [hki]

/-- C4, the code at the failing input (POSIX half): `engine_open` on an engine whose state
still has ENGINE_EOF set (state 3) succeeds in the parent, and afterwards `engine_active`
is true but `engine_eof` is true as well: the state is not reset. -/
theorem C4_posix_open_keeps_eof_bit :
    ∃ e, engine_open sample_flags sample_options (sample_os [] false) (fresh_engine [] true 3)
        = .parent e ∧
      engine_active sample_flags e = true ∧ engine_eof sample_flags e = true :=
  ⟨_, rfl, rfl, rfl⟩

end Posix

namespace Win32

/-- After a successful OS-native `engine_open` (`Active()` true), whatever the state
before, with the two masks different bits: the engine is active and not at
end-of-stream, since the state is reset first. -/
theorem engine_open_active (F : engine_flags) (a k : Nat)
    (hA : F.ENGINE_ACTIVE = 2 ^ a) (hE : F.ENGINE_EOF = 2 ^ k) (hak : a ≠ k)
    (opt : options) (h : Nat) (c : channel) (w : world) (engine : engine_ref) :
    ∃ w1, engine_open F opt true (some (h, c)) w engine = some w1 ∧
      (w1.deref engine).io.Active = true ∧
      engine_active F (w1.deref engine) = true ∧ engine_eof F (w1.deref engine) = false := by
  have h1 : (2 ^ a &&& 2 ^ a != 0) = true := by simp
  have h2 : 2 ^ a &&& 2 ^ k = 0 := by
    apply Nat.eq_of_testBit_eq
    intro i
    simp only [Nat.testBit_and, Nat.testBit_two_pow, Nat.zero_testBit]
    by_cases hki : k = i
    · subst hki; simp [hak]
    · simp [hki]
  cases engine <;> cases hn : opt.UseNice <;>
    simp [engine_open, world.deref, world.assign, PipeStruct.Open, PipeStruct.Active,
      engine_set_nice_value, SetPriorityClass, engine_active, engine_eof, hA, hE, hn, h1, h2]

end Win32

/-! ## `engine_close`: the drain -/

namespace Win32

theorem engine_get_Engine_other (F : engine_flags) (w w1 : world) (line : cstring)
    (h : engine_get F w .Engine = some (line, w1)) : w1.other = w.other := by
  unfold engine_get at h
  split at h
  · cases h
  · split at h <;> (injection h with h; injection h with _ h; rw [← h]; rfl)

theorem engine_close_loop_other (F : engine_flags) (fuel : Nat) :
    ∀ w : world, engine_eof F w.other = false → engine_close_loop F .other fuel w = none := by
  induction fuel with
  | zero => intro w _; rfl
  | succ n ih =>
    intro w hw
    unfold engine_close_loop
    simp only [world.deref, hw, Bool.false_eq_true, if_false]
    cases hg : engine_get F w .Engine with
    | none => rfl
    | some r =>
      obtain ⟨line, w1⟩ := r
      have ho := engine_get_Engine_other F w w1 line hg
      exact ih w1 (by rw [ho]; exact hw)

/-- On the OS-native half `engine_close` of an engine object other than the global
`Engine` that is not at end-of-stream never returns: the loop tests the object passed but
reads from `Engine`. -/
theorem engine_close_other_never_returns (F : engine_flags) (fuel : Nat) (w : world)
    (h : engine_eof F w.other = false) : engine_close F fuel w .other = none := by
  unfold engine_close
  have := engine_close_loop_other F fuel
    (w.assign .other { w.deref .other with io := (w.deref .other).io.Close }) h
  simp only [this]

/-- C5, the code at the failing input (OS-native half). The engine passed is an object
other than the global `Engine`; its child wrote three lines and exited, and the global
`Engine` is at end-of-stream already. With no amount of fuel does `engine_close` return:
the loop reads from `Engine` and never sets ENGINE_EOF in the engine passed, whose three
lines are never consumed. -/
theorem C5_win32_close_never_returns (fuel : Nat) :
    engine_close sample_flags fuel
      (start_world (fresh_engine [] true 3) (fresh_engine [three_lines] true 2)) .other = none :=
  engine_close_other_never_returns sample_flags fuel _ rfl

end Win32

namespace Posix

theorem engine_get_wait_spec (fuel : Nat) :
    ∀ io : io_t, io.in_eof = false → io.chan.pipe_eof = true → io.chan.pipe.length + 2 ≤ fuel →
      ∃ io1, engine_get_wait fuel io = some io1 ∧ io_line_ready io1 = true ∧
        held io1 = held io ∧ io1.chan.log = io.chan.log ∧ io1.chan.pipe_eof = true ∧
        (io1.in_eof = true → io1.in_lines = [] ∧ io1.chan.pipe = []) ∧
        io1.chan.pipe.length ≤ io.chan.pipe.length := by
  induction fuel with
  | zero => intro io _ _ h; omega
  | succ n ih =>
    intro io he hp hf
    unfold engine_get_wait
    by_cases hr : io_line_ready io = true
    · simp only [hr, if_true]
      exact ⟨io, rfl, hr, rfl, rfl, hp, by simp [he], le_refl _⟩
    · simp only [hr, if_false]
      have hl : io.in_lines = [] := by
        simp only [io_line_ready, he, Bool.false_or, Bool.not_eq_true', List.isEmpty_eq_false,
           Bool.not_eq_true] at hr
        cases h : io.in_lines with
        | nil => rfl
        | cons a t => simp [h] at hr
      cases hpipe : io.chan.pipe with
      | nil =>
        simp only [io_get_update, hpipe, hp, if_true]
        cases n with
        | zero => simp [hpipe] at hf
        | succ m =>
          refine ⟨{ io with in_eof := true }, by simp [engine_get_wait, io_line_ready], ?_, rfl,
            rfl, hp, fun _ => ⟨hl, hpipe⟩, by simp [hpipe]⟩
          simp [io_line_ready]
      | cons c rest =>
        simp only [io_get_update, hpipe]
        obtain ⟨io1, h1, h2, h3, h4, h5, h6, h7⟩ :=
          ih { io with in_lines := io.in_lines ++ c, chan := { io.chan with pipe := rest } }
            he hp (by simp [hpipe] at hf ⊢; omega)
        refine ⟨io1, h1, h2, ?_, h4, h5, h6, ?_⟩
        · rw [h3]; simp [held, hpipe]
        · simp [hpipe] at h7 ⊢; omega


theorem engine_close_loop_drains (F : engine_flags) (hE : F.ENGINE_EOF ≠ 0) (fuel : Nat) :
    ∀ (k : Nat) (e : engine_t), e.io.in_eof = false → e.io.chan.pipe_eof = true →
      engine_eof F e = false → e.io.chan.pipe.length + 2 ≤ fuel → (held e.io).length + 2 ≤ k →
      ∃ e1, engine_close_loop F fuel k e = some e1 ∧ engine_eof F e1 = true ∧
        held e1.io = [] ∧
        e1.io.chan.log
          = e.io.chan.log ++ (held e.io).map (fun l => io_event.read (some l)) ++ [.read none] := by
  intro k
  induction k with
  | zero => intro e _ _ _ _ h; omega
  | succ k ih =>
    intro e he hp hs hf hk
    obtain ⟨io1, h1, h2, h3, h4, h5, h6, h7⟩ := engine_get_wait_spec fuel e.io he hp hf
    unfold engine_close_loop
    simp only [hs, Bool.false_eq_true, if_false, engine_get, h1]
    cases hl : io1.in_lines with
    | nil =>
      have hin : io1.in_eof = true := by simpa [io_line_ready, hl] using h2
      have hpipe := (h6 hin).2
      have hheld : held e.io = [] := by rw [← h3]; simp [held, hl, hpipe]
      simp only [io_get_line, hl]
      cases k with
      | zero => omega
      | succ k =>
        have heof : ∀ io2 : io_t,
            engine_eof F { e with io := io2, state := e.state ||| F.ENGINE_EOF } = true := by
          intro io2
          simpa [engine_eof] using or_and_self_ne_zero e.state _ hE
        unfold engine_close_loop
        simp only [heof, if_true]
        refine ⟨_, rfl, heof _, ?_, ?_⟩
        · simp [held, hl, hpipe, channel.record]
        · simp [hheld, channel.record, h4]
    | cons l rest =>
      have hin : io1.in_eof = false := by
        cases h : io1.in_eof with
        | false => rfl
        | true => have := (h6 h).1; simp [hl] at this
      have hheld : held e.io = l :: (rest ++ io1.chan.pipe.flatten) := by
        rw [← h3]; simp [held, hl]
      simp only [io_get_line, hl]
      obtain ⟨e1, g1, g2, g3, g4⟩ := ih
        { e with io := { io1 with in_lines := rest, chan := io1.chan.record (.read (some l)) } }
        hin (by simpa [channel.record] using h5) (by simpa [engine_eof] using hs)
        (by simp only [channel.record]; omega)
        (by rw [hheld] at hk; simp [held, channel.record] at hk ⊢; omega)
      refine ⟨e1, g1, g2, g3, ?_⟩
      rw [g4, hheld]
      simp [held, channel.record, h4]

/-- The POSIX `engine_close` drains fully: when the transport of the engine holds lines
followed by end-of-stream, it returns (with enough fuel), has read out every line in
order and then end-of-stream, and the engine is at end-of-stream. -/
theorem engine_close_drains (F : engine_flags) (hE : F.ENGINE_EOF ≠ 0) (fuel : Nat)
    (engine : engine_t) (he : engine.io.in_eof = false) (hp : engine.io.chan.pipe_eof = true)
    (hs : engine_eof F engine = false)
    (hf : (held engine.io).length + engine.io.chan.pipe.length + 2 ≤ fuel) :
    ∃ e1, engine_close F fuel engine = some e1 ∧ engine_eof F e1 = true ∧ held e1.io = [] ∧
      e1.io.chan.log = engine.io.chan.log ++ [.close] ++
        (held engine.io).map (fun l => io_event.read (some l)) ++ [.read none] := by
  obtain ⟨e1, g1, g2, g3, g4⟩ := engine_close_loop_drains F hE fuel fuel
    { engine with io := io_close engine.io } he (by simpa [io_close, channel.record] using hp)
    (by simpa [engine_eof] using hs) (by simp only [io_close, channel.record]; omega)
    (by simp only [held, io_close, channel.record] at hf ⊢; omega)
  exact ⟨e1, g1, g2, g3, by rw [g4]; simp [held, io_close, channel.record]⟩

/-- The POSIX `engine_close` of an engine already at end-of-stream returns at once: the
transport is released and nothing is read. -/
theorem engine_close_at_eof (F : engine_flags) (fuel : Nat) (engine : engine_t)
    (hs : engine_eof F engine = true) :
    engine_close F (fuel + 1) engine = some { engine with io := io_close engine.io } := by
  have : engine_eof F { engine with io := io_close engine.io } = true := by
    simpa [engine_eof] using hs
  unfold engine_close engine_close_loop
  simp only [this, if_true]

end Posix

/-! ## What a receive does to the state and to the log -/

theorem grows_refl (F : engine_flags) (s : Nat) : grows F s s := Or.inl rfl

theorem grows_trans (F : engine_flags) (s s1 s2 : Nat) (h1 : grows F s s1) (h2 : grows F s1 s2) :
    grows F s s2 := by
  rcases h1 with h1 | h1 <;> rcases h2 with h2 | h2 <;> subst h1 <;> subst h2
  · exact Or.inl rfl
  · exact Or.inr rfl
  · exact Or.inr rfl
  · exact Or.inr (by rw [Nat.lor_assoc, Nat.or_self])

theorem grows_keeps (F : engine_flags) (s s1 m : Nat) (h : grows F s s1) (hm : s &&& m ≠ 0) :
    s1 &&& m ≠ 0 := by
  rcases h with h | h <;> subst h
  · exact hm
  · exact and_or_ne_zero _ _ _ hm

namespace Posix

theorem engine_get_wait_log (fuel : Nat) :
    ∀ io io1 : io_t, engine_get_wait fuel io = some io1 → io1.chan.log = io.chan.log := by
  induction fuel with
  | zero => intro io io1 h; cases h
  | succ n ih =>
    intro io io1 h
    unfold engine_get_wait at h
    split at h
    · injection h with h; rw [h]
    · cases hu : io_get_update io with
      | none => simp [hu] at h
      | some io2 =>
        simp only [hu] at h
        rw [ih io2 io1 h]
        unfold io_get_update at hu
        split at hu
        · injection hu with hu; rw [← hu]
        · split at hu
          · injection hu with hu; rw [← hu]
          · cases hu

theorem engine_get_effect (F : engine_flags) (fuel : Nat) (e e1 : engine_t) (line : cstring)
    (h : engine_get F fuel e = some (line, e1)) :
    (e1.state = e.state ∧ ∃ l, e1.io.chan.log = e.io.chan.log ++ [.read (some l)]) ∨
    (e1.state = e.state ||| F.ENGINE_EOF ∧ e1.io.chan.log = e.io.chan.log ++ [.read none]) := by
  unfold engine_get at h
  cases hw : engine_get_wait fuel e.io with
  | none => simp [hw] at h
  | some io1 =>
    have hlog := engine_get_wait_log fuel e.io io1 hw
    simp only [hw] at h
    cases hl : io1.in_lines with
    | nil =>
      simp only [io_get_line, hl] at h
      injection h with h; injection h with _ h
      right
      rw [← h]
      exact ⟨rfl, by simp [channel.record, hlog]⟩
    | cons l rest =>
      simp only [io_get_line, hl] at h
      injection h with h; injection h with _ h
      left
      rw [← h]
      exact ⟨rfl, l, by simp [channel.record, hlog]⟩

theorem engine_close_loop_effect (F : engine_flags) (fuel : Nat) :
    ∀ (k : Nat) (e e1 : engine_t), engine_close_loop F fuel k e = some e1 →
      grows F e.state e1.state ∧
      ∃ rs, e1.io.chan.log = e.io.chan.log ++ rs ∧ (∀ r ∈ rs, ∃ l, r = io_event.read l) ∧
        (engine_eof F e = true → rs = []) ∧
        (engine_eof F e = false → ∃ rs0, rs = rs0 ++ [.read none]) := by
  intro k
  induction k with
  | zero => intro e e1 h; cases h
  | succ k ih =>
    intro e e1 h
    unfold engine_close_loop at h
    cases hs : engine_eof F e with
    | true =>
      simp only [hs, if_true] at h
      injection h with h
      subst h
      exact ⟨grows_refl F _, [], by simp, by simp, fun _ => rfl, by simp⟩
    | false =>
      simp only [hs, Bool.false_eq_true, if_false] at h
      cases hg : engine_get F fuel e with
      | none => simp [hg] at h
      | some r =>
        obtain ⟨line, e2⟩ := r
        simp only [hg] at h
        obtain ⟨hgrow, rs, hlog, hall, hnil, hlast⟩ := ih e2 e1 h
        rcases engine_get_effect F fuel e e2 line hg with ⟨hst, l, hl⟩ | ⟨hst, hl⟩
        · have hs2 : engine_eof F e2 = false := by simpa [engine_eof, hst] using hs
          obtain ⟨rs0, hrs0⟩ := hlast hs2
          refine ⟨grows_trans F _ _ _ (Or.inl hst) hgrow, .read (some l) :: rs, ?_, ?_, by simp,
            fun _ => ⟨.read (some l) :: rs0, by simp [hrs0]⟩⟩
          · rw [hlog, hl]; simp
          · intro r hr
            rcases List.mem_cons.mp hr with h0 | h0
            · exact ⟨_, h0⟩
            · exact hall r h0
        · refine ⟨grows_trans F _ _ _ (Or.inr hst) hgrow, .read none :: rs, ?_, ?_, by simp, ?_⟩
          · rw [hlog, hl]; simp
          · intro r hr
            rcases List.mem_cons.mp hr with h0 | h0
            · exact ⟨_, h0⟩
            · exact hall r h0
          · intro _
            cases hs2 : engine_eof F e2 with
            | true => exact ⟨[], by simp [hnil hs2]⟩
            | false =>
              obtain ⟨rs0, hrs0⟩ := hlast hs2
              exact ⟨.read none :: rs0, by simp [hrs0]⟩

end Posix

namespace Win32

theorem LineInput_wait_effect (io : PipeStruct) :
    ∀ (pipe : List (List cstring)) (line : cstring) (io1 : PipeStruct),
      io.LineInput_wait pipe = some (line, io1) →
      (io1.eof = io.eof ∧ ∃ l, io1.chan.log = io.chan.log ++ [.read (some l)]) ∨
      (io1.eof = true ∧ io1.chan.log = io.chan.log ++ [.read none]) := by
  intro pipe
  induction pipe with
  | nil =>
    intro line io1 h
    unfold PipeStruct.LineInput_wait at h
    split at h
    · injection h with h; injection h with _ h
      right; rw [← h]; exact ⟨rfl, rfl⟩
    · cases h
  | cons c rest ih =>
    intro line io1 h
    cases c with
    | nil => exact ih line io1 (by simpa [PipeStruct.LineInput_wait] using h)
    | cons l ls =>
      simp only [PipeStruct.LineInput_wait] at h
      injection h with h; injection h with _ h
      left; rw [← h]; exact ⟨rfl, l, rfl⟩

theorem LineInput_effect (io io1 : PipeStruct) (line : cstring)
    (h : io.LineInput = some (line, io1)) :
    (io1.EOF_ = false ∧ ∃ l, io1.chan.log = io.chan.log ++ [.read (some l)]) ∨
    (io1.EOF_ = true ∧ io1.chan.log = io.chan.log ++ [.read none]) := by
  unfold PipeStruct.LineInput at h
  cases he : io.eof with
  | true =>
    simp only [he, if_true] at h
    injection h with h; injection h with _ h
    right; rw [← h]; exact ⟨rfl, rfl⟩
  | false =>
    simp only [he, Bool.false_eq_true, if_false] at h
    cases hl : io.lines with
    | cons l rest =>
      simp only [hl] at h
      injection h with h; injection h with _ h
      left; rw [← h]; exact ⟨rfl, l, rfl⟩
    | nil =>
      simp only [hl] at h
      rcases LineInput_wait_effect io _ line io1 h with ⟨h1, h2⟩ | ⟨h1, h2⟩
      · left; exact ⟨by rw [PipeStruct.EOF_, h1, he], h2⟩
      · right; exact ⟨h1, h2⟩

theorem win32_engine_get_effect (F : engine_flags) (w w1 : world) (engine : engine_ref)
    (line : cstring) (h : engine_get F w engine = some (line, w1)) :
    ∃ e1, w1 = w.assign engine e1 ∧
      ((e1.state = (w.deref engine).state ∧
          ∃ l, e1.io.chan.log = (w.deref engine).io.chan.log ++ [.read (some l)]) ∨
       (e1.state = (w.deref engine).state ||| F.ENGINE_EOF ∧
          e1.io.chan.log = (w.deref engine).io.chan.log ++ [.read none])) := by
  unfold engine_get at h
  cases hin : (w.deref engine).io.LineInput with
  | none => simp [hin] at h
  | some r =>
    obtain ⟨l0, io1⟩ := r
    simp only [hin] at h
    rcases LineInput_effect _ io1 l0 hin with ⟨h1, h2⟩ | ⟨h1, h2⟩
    · simp only [h1, Bool.false_eq_true, if_false] at h
      injection h with h; injection h with _ h
      exact ⟨_, h.symm, Or.inl ⟨rfl, h2⟩⟩
    · simp only [h1, if_true] at h
      injection h with h; injection h with _ h
      exact ⟨_, h.symm, Or.inr ⟨rfl, h2⟩⟩

theorem win32_engine_close_loop_effect (F : engine_flags) (engine : engine_ref) :
    ∀ (fuel : Nat) (w w1 : world), engine_close_loop F engine fuel w = some w1 →
      w1.other = w.other ∧ grows F w.Engine.state w1.Engine.state ∧
      ∃ rs, w1.Engine.io.chan.log = w.Engine.io.chan.log ++ rs ∧
        (∀ r ∈ rs, ∃ l, r = io_event.read l) := by
  intro fuel
  induction fuel with
  | zero => intro w w1 h; cases h
  | succ n ih =>
    intro w w1 h
    unfold engine_close_loop at h
    split at h
    · injection h with h
      subst h
      exact ⟨rfl, grows_refl F _, [], by simp, by simp⟩
    · cases hg : engine_get F w .Engine with
      | none => simp [hg] at h
      | some r =>
        obtain ⟨line, w2⟩ := r
        simp only [hg] at h
        obtain ⟨ho, hgrow, rs, hlog, hall⟩ := ih w2 w1 h
        obtain ⟨e1, hw2, heff⟩ := win32_engine_get_effect F w w2 .Engine line hg
        have hE2 : w2.Engine = e1 := by rw [hw2]; rfl
        have ho2 : w2.other = w.other := by rw [hw2]; rfl
        simp only [world.deref] at heff
        rcases heff with ⟨hst, l, hl⟩ | ⟨hst, hl⟩
        · refine ⟨ho.trans ho2, grows_trans F _ _ _ (Or.inl (by rw [hE2, hst])) hgrow,
            .read (some l) :: rs, by rw [hlog, hE2, hl]; simp, ?_⟩
          intro r hr
          rcases List.mem_cons.mp hr with h0 | h0
          · exact ⟨_, h0⟩
          · exact hall r h0
        · refine ⟨ho.trans ho2, grows_trans F _ _ _ (Or.inr (by rw [hE2, hst])) hgrow,
            .read none :: rs, by rw [hlog, hE2, hl]; simp, ?_⟩
          intro r hr
          rcases List.mem_cons.mp hr with h0 | h0
          · exact ⟨_, h0⟩
          · exact hall r h0

theorem engine_close_loop_other_returns (F : engine_flags) (fuel : Nat) (w w1 : world)
    (h : engine_close_loop F .other fuel w = some w1) : w1 = w := by
  cases hs : engine_eof F w.other with
  | false => rw [engine_close_loop_other F fuel w hs] at h; cases h
  | true =>
    cases fuel with
    | zero => cases h
    | succ n =>
      unfold engine_close_loop at h
      simp only [world.deref, hs, if_true] at h
      injection h with h
      exact h.symm

theorem engine_close_effect (F : engine_flags) (fuel : Nat) (w w1 : world) (engine : engine_ref)
    (h : engine_close F fuel w engine = some w1) :
    (∀ p, grows F (w.deref p).state (w1.deref p).state) ∧
    ∃ rs, (w1.deref engine).io.chan.log
        = (w.deref engine).io.chan.log ++ io_event.close :: rs ++ [.kill] ∧
      (∀ r ∈ rs, ∃ l, r = io_event.read l) := by
  unfold engine_close at h
  simp only at h
  split at h
  · cases h
  · rename_i w2 hloop
    injection h with h
    subst h
    cases engine with
    | Engine =>
      obtain ⟨ho, hgrow, rs, hlog, hall⟩ := win32_engine_close_loop_effect F .Engine fuel _ w2 hloop
      refine ⟨?_, rs, ?_, hall⟩
      · intro p
        cases p
        · simpa [world.deref, world.assign] using hgrow
        · simp only [world.deref, world.assign] at ho ⊢
          rw [ho]; exact grows_refl F _
      · simp only [world.deref, world.assign, PipeStruct.Kill, PipeStruct.Close,
          channel.record] at hlog ⊢
        rw [hlog]; simp
    | other =>
      have hw2 := engine_close_loop_other_returns F fuel _ w2 hloop
      subst hw2
      refine ⟨?_, [], ?_, by simp⟩
      · intro p
        cases p <;> exact grows_refl F _
      · simp [world.deref, world.assign, PipeStruct.Kill, PipeStruct.Close, channel.record]

end Win32

/-! ## `engine_close`: the order of the operations -/

/-- C6 (as amended). In every run of `engine_close` that returns, on both halves, the
release of the transport (`io_close`, `io.Close()`) is the first operation: what is done
on the transport of the engine passed is the release, then only reads of the drain loop
(on the POSIX half none if the engine was at end-of-stream already, and otherwise ending
with the read that observes end-of-stream), and on the OS-native half the forced
termination `Kill` as the last operation. -/
theorem C6_release_comes_first (F : engine_flags) (fuel : Nat) :
    (∀ e e1 : Posix.engine_t, Posix.engine_close F fuel e = some e1 →
      ∃ rs, e1.io.chan.log = e.io.chan.log ++ io_event.close :: rs ∧
        (∀ r ∈ rs, ∃ l, r = io_event.read l) ∧
        (Posix.engine_eof F e = true → rs = []) ∧
        (Posix.engine_eof F e = false → ∃ rs0, rs = rs0 ++ [.read none])) ∧
    (∀ (w w1 : Win32.world) (engine : Win32.engine_ref),
      Win32.engine_close F fuel w engine = some w1 →
      ∃ rs, (w1.deref engine).io.chan.log
          = (w.deref engine).io.chan.log ++ io_event.close :: rs ++ [.kill] ∧
        (∀ r ∈ rs, ∃ l, r = io_event.read l)) := by
  constructor
  · intro e e1 h
    obtain ⟨_, rs, hlog, hall, hnil, hlast⟩ := Posix.engine_close_loop_effect F fuel fuel _ e1 h
    refine ⟨rs, ?_, hall, ?_, ?_⟩
    · rw [hlog]; simp [Posix.io_close, channel.record]
    · intro he; exact hnil (by simpa [Posix.engine_eof] using he)
    · intro he; exact hlast (by simpa [Posix.engine_eof] using he)
  · intro w w1 engine h
    exact (Win32.engine_close_effect F fuel w w1 engine h).2

/-- C6, witness: the run of the POSIX `engine_close` on an engine whose child wrote three
lines and exited. -/
theorem C6_release_comes_first_witness :
    ∃ e1, Posix.engine_close sample_flags 9 (Posix.fresh_engine [three_lines] true 2) = some e1 ∧
      ∃ rs, e1.io.chan.log = [] ++ io_event.close :: rs ∧
        (∀ r ∈ rs, ∃ l, r = io_event.read l) ∧
        (Posix.engine_eof sample_flags (Posix.fresh_engine [three_lines] true 2) = true →
          rs = []) ∧
        (Posix.engine_eof sample_flags (Posix.fresh_engine [three_lines] true 2) = false →
          ∃ rs0, rs = rs0 ++ [.read none]) :=
  ⟨_, rfl, (C6_release_comes_first sample_flags 9).1
    (Posix.fresh_engine [three_lines] true 2) _ rfl⟩

/-- C6, counterexample: on both halves the release is the first operation of
`engine_close`, before every read of the drain loop and so before the read that
observes end-of-stream (`read none`). -/
theorem C6_release_precedes_the_drain :
    (∃ e1, Posix.engine_close sample_flags 9 (Posix.fresh_engine [three_lines] true 2) = some e1 ∧
      e1.io.chan.log = [.close, .read (some "id name X".toList), .read (some "uciok".toList),
        .read (some "bye".toList), .read none]) ∧
    (∃ w1, Win32.engine_close sample_flags 9
        (Win32.start_world (Win32.fresh_engine [three_lines] true 2)
          (Win32.fresh_engine [] false 0)) .Engine = some w1 ∧
      w1.Engine.io.chan.log = [.close, .read (some "id name X".toList),
        .read (some "uciok".toList), .read (some "bye".toList), .read none, .kill]) :=
  ⟨⟨_, rfl, rfl⟩, ⟨_, rfl, rfl⟩⟩

/-! ## Monotonic state -/

namespace Posix

theorem call_grows (F : engine_flags) (fuel : Nat) (op : engine_call) (e e1 : engine_t)
    (h : call F fuel op e = some e1) : grows F e.state e1.state := by
  cases op with
  | get =>
    simp only [call, Option.map_eq_some'] at h
    obtain ⟨⟨line, e2⟩, hg, he⟩ := h
    simp only at he
    subst he
    rcases engine_get_effect F fuel e e2 line hg with ⟨hs, _⟩ | ⟨hs, _⟩
    · exact Or.inl hs
    · exact Or.inr hs
  | get_non_blocking =>
    simp only [call, Option.map_eq_some'] at h
    obtain ⟨⟨b, line, e2⟩, hg, he⟩ := h
    simp only at he
    subst he
    unfold engine_get_non_blocking at hg
    split at hg
    · cases hgg : engine_get F fuel e with
      | none => simp [hgg] at hg
      | some r =>
        obtain ⟨l0, e3⟩ := r
        simp only [hgg] at hg
        injection hg with hg
        injection hg with _ hg
        injection hg with _ hg
        subst hg
        rcases engine_get_effect F fuel e e3 l0 hgg with ⟨hs, _⟩ | ⟨hs, _⟩
        · exact Or.inl hs
        · exact Or.inr hs
    · injection hg with hg
      injection hg with _ hg
      injection hg with _ hg
      subst hg
      exact grows_refl F _
  | send text =>
    simp only [call, engine_send] at h
    split at h
    · injection h with h; subst h; exact grows_refl F _
    · cases h
  | send_queue text =>
    simp only [call, engine_send_queue] at h
    split at h
    · injection h with h; subst h; exact grows_refl F _
    · cases h
  | set_nice_value value =>
    simp only [call] at h
    injection h with h; subst h; exact grows_refl F _
  | close =>
    exact (engine_close_loop_effect F fuel fuel _ e1 h).1

end Posix

namespace Win32

theorem win32_call_grows (F : engine_flags) (fuel : Nat) (op : engine_call) (w w1 : world)
    (engine : engine_ref) (h : call F fuel op w engine = some w1) (p : engine_ref) :
    grows F (w.deref p).state (w1.deref p).state := by
  cases op with
  | get =>
    simp only [call, Option.map_eq_some'] at h
    obtain ⟨⟨line, w2⟩, hg, he⟩ := h
    simp only at he
    subst he
    obtain ⟨e1, hw, heff⟩ := win32_engine_get_effect F w w2 engine line hg
    subst hw
    cases engine <;> cases p <;>
      first
        | exact grows_refl F _
        | (rcases heff with ⟨hs, _⟩ | ⟨hs, _⟩
           · exact Or.inl hs
           · exact Or.inr hs)
  | get_non_blocking =>
    simp only [call] at h
    injection h with h
    subst h
    unfold engine_get_non_blocking
    split
    · exact grows_refl F _
    · split
      · cases engine <;> cases p <;> exact grows_refl F _
      · split
        · cases engine <;> cases p <;>
            first
              | exact grows_refl F _
              | exact Or.inr rfl
        · cases engine <;> cases p <;> exact grows_refl F _
  | send text =>
    simp only [call, engine_send] at h
    split at h
    · cases h
    · injection h with h; subst h
      cases engine <;> cases p <;> exact grows_refl F _
  | send_queue text =>
    simp only [call, engine_send_queue] at h
    split at h
    · cases h
    · injection h with h; subst h
      cases p <;> exact grows_refl F _
  | set_nice_value value =>
    simp only [call] at h
    injection h with h; subst h
    cases engine <;> cases p <;> exact grows_refl F _
  | close =>
    exact (engine_close_effect F fuel w w1 engine h).1 p

end Win32

/-- C7. For every operation among `engine_get`, `engine_get_non_blocking`, `engine_send`,
`engine_send_queue`, `engine_set_nice_value` and `engine_close`, on both halves and for
every state before the call: when the call returns, each of the bits ENGINE_ACTIVE and
ENGINE_EOF that was set before is still set (on the OS-native half in the engine passed
and in the global `Engine` alike). -/
theorem C7_state_bits_are_kept (F : engine_flags) (fuel : Nat) (op : engine_call) :
    (∀ e e1 : Posix.engine_t, Posix.call F fuel op e = some e1 →
      (Posix.engine_active F e = true → Posix.engine_active F e1 = true) ∧
      (Posix.engine_eof F e = true → Posix.engine_eof F e1 = true)) ∧
    (∀ (w w1 : Win32.world) (engine : Win32.engine_ref),
      Win32.call F fuel op w engine = some w1 →
      ∀ p : Win32.engine_ref,
        (Win32.engine_active F (w.deref p) = true → Win32.engine_active F (w1.deref p) = true) ∧
        (Win32.engine_eof F (w.deref p) = true → Win32.engine_eof F (w1.deref p) = true)) := by
  constructor
  · intro e e1 h
    have hg := Posix.call_grows F fuel op e e1 h
    constructor
    · intro ha
      have : e.state &&& F.ENGINE_ACTIVE ≠ 0 := by simpa [Posix.engine_active] using ha
      simpa [Posix.engine_active] using grows_keeps F _ _ _ hg this
    · intro ha
      have : e.state &&& F.ENGINE_EOF ≠ 0 := by simpa [Posix.engine_eof] using ha
      simpa [Posix.engine_eof] using grows_keeps F _ _ _ hg this
  · intro w w1 engine h p
    have hg := Win32.win32_call_grows F fuel op w w1 engine h p
    constructor
    · intro ha
      have : (w.deref p).state &&& F.ENGINE_ACTIVE ≠ 0 := by simpa [Win32.engine_active] using ha
      simpa [Win32.engine_active] using grows_keeps F _ _ _ hg this
    · intro ha
      have : (w.deref p).state &&& F.ENGINE_EOF ≠ 0 := by simpa [Win32.engine_eof] using ha
      simpa [Win32.engine_eof] using grows_keeps F _ _ _ hg this

/-! ## The argument vector -/

namespace Posix

theorem strtok_nil : strtok [] = none := rfl

theorem dropWhile_space_token (t rest : List Char) (h0 : t ≠ []) (hsp : ' ' ∉ t) :
    (t ++ rest).dropWhile (fun c => c == ' ') = t ++ rest := by
  cases t with
  | nil => exact absurd rfl h0
  | cons a t =>
    have ha : a ≠ ' ' := fun e => hsp (by simp [e])
    have hb : (a == ' ') = false := by simpa using ha
    simp [List.dropWhile, hb]

theorem takeWhile_token (t rest : List Char) (hsp : ' ' ∉ t) :
    (t ++ ' ' :: rest).takeWhile (fun c => c != ' ') = t ∧
    (t ++ ' ' :: rest).dropWhile (fun c => c != ' ') = ' ' :: rest := by
  induction t with
  | nil => simp [List.takeWhile, List.dropWhile]
  | cons a t ih =>
    have ha : a ≠ ' ' := fun e => hsp (by simp [e])
    have hb : (a != ' ') = true := by simpa using ha
    have ht : ' ' ∉ t := fun e => hsp (by simp [e])
    simp [List.takeWhile, List.dropWhile, hb, ih ht]

theorem takeWhile_token_end (t : List Char) (hsp : ' ' ∉ t) :
    t.takeWhile (fun c => c != ' ') = t ∧ t.dropWhile (fun c => c != ' ') = [] := by
  induction t with
  | nil => simp
  | cons a t ih =>
    have ha : a ≠ ' ' := fun e => hsp (by simp [e])
    have hb : (a != ' ') = true := by simpa using ha
    have ht : ' ' ∉ t := fun e => hsp (by simp [e])
    simp [List.takeWhile, List.dropWhile, hb, ih ht]

theorem strtok_token (t rest : List Char) (h0 : t ≠ []) (hsp : ' ' ∉ t) :
    strtok (t ++ ' ' :: rest) = some (t, rest) := by
  unfold strtok
  have hne : (t ++ ' ' :: rest).isEmpty = false := by cases t <;> simp
  simp only [dropWhile_space_token t _ h0 hsp, hne, Bool.false_eq_true, if_false,
    (takeWhile_token t rest hsp).1, (takeWhile_token t rest hsp).2, List.drop_one, List.tail_cons]

theorem strtok_last (t : List Char) (h0 : t ≠ []) (hsp : ' ' ∉ t) :
    strtok t = some (t, []) := by
  unfold strtok
  have hd := dropWhile_space_token t [] h0 hsp
  simp only [List.append_nil] at hd
  have hne : t.isEmpty = false := by cases t <;> simp at h0 ⊢
  simp only [hd, hne, Bool.false_eq_true, if_false, (takeWhile_token_end t hsp).1,
    (takeWhile_token_end t hsp).2, List.drop_nil]

theorem argv_loop_nil (fuel : Nat) : argv_loop fuel [] = [] := by
  cases fuel <;> rfl

theorem dropWhile_spaces (n : Nat) (s : List Char) :
    (List.replicate n ' ' ++ s).dropWhile (fun c => c == ' ') = s.dropWhile (fun c => c == ' ') := by
  induction n with
  | zero => simp
  | succ n ih => simp [List.replicate_succ, List.dropWhile, ih]

theorem argv_loop_spaces (fuel n : Nat) : argv_loop fuel (List.replicate n ' ') = [] := by
  cases fuel with
  | zero => rfl
  | succ m =>
    have h := dropWhile_spaces n []
    simp only [List.append_nil, List.dropWhile_nil] at h
    simp [argv_loop, strtok, h]

theorem strtok_lead (n : Nat) (s : List Char) :
    strtok (List.replicate n ' ' ++ s) = strtok s := by
  simp only [strtok, dropWhile_spaces]

theorem argv_loop_space_separated (ts : List (cstring × Nat)) :
    ∀ lead fuel : Nat, (∀ p ∈ ts, p.1 ≠ [] ∧ ' ' ∉ p.1) → (∀ p ∈ ts.dropLast, 1 ≤ p.2) →
      ts.length + 1 ≤ fuel → argv_loop fuel (space_separated lead ts) = ts.map Prod.fst := by
  induction ts with
  | nil =>
    intro lead fuel _ _ _
    simpa [space_separated, spaced] using argv_loop_spaces fuel lead
  | cons p rest ih =>
    intro lead fuel htok hgap hf
    obtain ⟨t, gap⟩ := p
    obtain ⟨h0, hsp⟩ := htok (t, gap) (by simp)
    cases fuel with
    | zero => omega
    | succ n =>
      have hrest : ∀ q ∈ rest, q.1 ≠ [] ∧ ' ' ∉ q.1 := fun q hq => htok q (by simp [hq])
      have hf1 : rest.length + 1 ≤ n := by simp at hf ⊢; omega
      cases gap with
      | zero =>
        cases rest with
        | nil =>
          simp only [space_separated, spaced, List.replicate_zero, List.append_nil, argv_loop,
            strtok_lead, strtok_last t h0 hsp, argv_loop_nil, List.map_cons, List.map_nil]
        | cons q rest =>
          have := hgap (t, 0) (by simp [List.dropLast])
          simp at this
      | succ g =>
        have hg : ∀ q ∈ rest.dropLast, 1 ≤ q.2 := by
          intro q hq
          cases rest with
          | nil => simp at hq
          | cons r rest => exact hgap q (by simp [List.dropLast, hq])
        have hshape : space_separated lead ((t, g + 1) :: rest)
            = List.replicate lead ' ' ++ (t ++ ' ' :: space_separated g rest) := by
          simp [space_separated, spaced, List.replicate_succ]
        rw [hshape]
        simp only [argv_loop, strtok_lead, strtok_token t _ h0 hsp, List.map_cons]
        rw [ih g n hrest hg hf1]

theorem length_space_separated (lead : Nat) (ts : List (cstring × Nat))
    (htok : ∀ p ∈ ts, p.1 ≠ []) : ts.length ≤ (space_separated lead ts).length := by
  have h : ∀ l : List (cstring × Nat), (∀ p ∈ l, p.1 ≠ []) → l.length ≤ (spaced l).length := by
    intro l
    induction l with
    | nil => intro _; simp
    | cons p rest ih =>
      intro hl
      have h0 : 1 ≤ p.1.length := List.length_pos.mpr (hl p (by simp))
      have := ih (fun x hx => hl x (by simp [hx]))
      obtain ⟨t, gap⟩ := p
      simp only [spaced, List.length_append, List.length_cons, List.length_replicate] at this h0 ⊢
      omega
  have := h ts htok
  simp only [space_separated, List.length_append, List.length_replicate]
  omega

theorem strtok_some (s rest : List Char) (ptr : cstring) (h : strtok s = some (ptr, rest)) :
    ptr ≠ [] ∧ ' ' ∉ ptr := by
  unfold strtok at h
  simp only at h
  split at h
  · cases h
  · rename_i hne
    injection h with h
    injection h with h _
    subst h
    constructor
    · cases hd : s.dropWhile (fun c => c == ' ') with
      | nil => simp [hd] at hne
      | cons a t =>
        have ha : (a == ' ') = false := by
          have := List.head_dropWhile_not (fun c => c == ' ') s (by simp [hd])
          simpa [hd] using this
        have hb : (a != ' ') = true := by simpa [bne] using ha
        simp [List.takeWhile, hb]
    · intro hmem
      have := List.mem_takeWhile_imp hmem
      simp at this

theorem argv_loop_mem (fuel : Nat) :
    ∀ (s : List Char) (arg : cstring), arg ∈ argv_loop fuel s → arg ≠ [] ∧ ' ' ∉ arg := by
  induction fuel with
  | zero => intro s arg h; simp [argv_loop] at h
  | succ n ih =>
    intro s arg h
    unfold argv_loop at h
    cases hs : strtok s with
    | none => simp [hs] at h
    | some r =>
      obtain ⟨ptr, rest⟩ := r
      simp only [hs, List.mem_cons] at h
      rcases h with h | h
      · subst h; exact strtok_some s rest arg hs
      · exact ih rest arg h

theorem engine_open_child_argv (F : engine_flags) (opt : options) (os : os_open)
    (engine : engine_t) (argv : List cstring) (nice : Option Int)
    (h : engine_open F opt os engine = .child_exec argv nice) :
    argv = argv_loop (opt.EngineCommand.length + 1) opt.EngineCommand := by
  unfold engine_open at h
  simp only at h
  split at h
  · cases h
  · split at h
    · cases h
    · split at h
      · cases h
      · split at h
        · cases h
        · split at h
          · cases h
          · split at h
            · split at h
              · cases h
              · injection h with h _
                exact h.symm
            · cases h

end Posix

namespace Posix

/-- C8 (as amended). For any command line composed of non-empty tokens without embedded
spaces, separated by one or more spaces (leading and trailing spaces allowed), that is
shorter than `StringSize` (4096) characters and has at most 255 tokens (what `argv[256]`
holds with its NULL terminator): in the child, when `pipe`, `fork` and `chdir` succeed,
`engine_open` calls `execvp` with an argument vector that equals those tokens exactly, in
order. -/
theorem C8_argv_equals_tokens (F : engine_flags) (opt : options) (os : os_open)
    (engine : engine_t) (lead : Nat) (ts : List (cstring × Nat))
    (htok : ∀ p ∈ ts, p.1 ≠ [] ∧ ' ' ∉ p.1) (hgap : ∀ p ∈ ts.dropLast, 1 ≤ p.2)
    (hcmd : opt.EngineCommand = space_separated lead ts)
    (hlen : opt.EngineCommand.length < StringSize) (hargc : ts.length ≤ 255)
    (hpf : os.pipe_from.isSome = true) (hpt : os.pipe_to.isSome = true) (hfork : os.fork = 0)
    (hdir : opt.EngineDir = [] ∨ os.chdir_ok = true) :
    engine_open F opt os engine
      = .child_exec (ts.map Prod.fst) (if opt.UseNice then some opt.NiceValue else none) := by
  have hargv : argv_loop (opt.EngineCommand.length + 1) opt.EngineCommand = ts.map Prod.fst := by
    rw [hcmd]
    apply argv_loop_space_separated ts lead _ htok hgap
    have := length_space_separated lead ts (fun t ht => (htok t ht).1)
    omega
  obtain ⟨pf, hpf1⟩ := Option.isSome_iff_exists.mp hpf
  obtain ⟨pt, hpt1⟩ := Option.isSome_iff_exists.mp hpt
  have hd : (!opt.EngineDir.isEmpty && !os.chdir_ok) = false := by
    rcases hdir with h | h <;> simp [h]
  unfold engine_open
  simp only [hargv, hpf1, hpt1, hfork, hd, ge_iff_le, Nat.not_le.mpr hlen, gt_iff_lt,
    Nat.not_lt.mpr (by simpa using hargc : (ts.map Prod.fst).length ≤ 255), if_false, if_true,
    Bool.false_eq_true]
  simp

/-- C8, witness: the command line `engine -x`. -/
theorem C8_argv_equals_tokens_witness :
    engine_open sample_flags sample_options child_os (fresh_engine [] false 0)
      = .child_exec ["engine".toList, "-x".toList] none :=
  C8_argv_equals_tokens sample_flags sample_options child_os (fresh_engine [] false 0)
    0 [("engine".toList, 1), ("-x".toList, 0)] (by decide) (by decide) rfl (by decide)
    (by decide) rfl rfl rfl (Or.inl rfl)

/-- C8, counterexample: a command line of one token of `StringSize` characters, without
any space: `engine_open` builds no argument vector, it stops in `my_fatal`. -/
theorem C8_long_command_is_fatal :
    space_separated 0 [(List.replicate StringSize 'a', 0)] = List.replicate StringSize 'a' ∧
    ' ' ∉ List.replicate StringSize 'a' ∧
    engine_open sample_flags
      { sample_options with EngineCommand := List.replicate StringSize 'a' } child_os
      (fresh_engine [] false 0) = .fatal "engine_open(): buffer overflow" := by
  refine ⟨by simp [space_separated, spaced], ?_, ?_⟩
  · simp [List.mem_replicate]
  · simp [engine_open]

/-- C9 (as amended). For every command line, no argument of the argument vector that
`engine_open` passes to `execvp` contains a space character and none is empty. The
delimiter is the space alone: tabs and newlines stay inside arguments. -/
theorem C9_arguments_have_no_space (F : engine_flags) (opt : options) (os : os_open)
    (engine : engine_t) (argv : List cstring) (nice : Option Int)
    (h : engine_open F opt os engine = .child_exec argv nice)
    (arg : cstring) (harg : arg ∈ argv) : arg ≠ [] ∧ ' ' ∉ arg := by
  rw [engine_open_child_argv F opt os engine argv nice h] at harg
  exact argv_loop_mem _ _ arg harg

/-- C9, witness: the argument `-x` of the command line `engine -x`. -/
theorem C9_arguments_have_no_space_witness : "-x".toList ≠ [] ∧ ' ' ∉ "-x".toList :=
  C9_arguments_have_no_space sample_flags sample_options child_os (fresh_engine [] false 0)
    ["engine".toList, "-x".toList] none rfl "-x".toList (by decide)

/-- C9, counterexample: the command line "a<TAB>b" gives the one argument "a<TAB>b", which
contains a whitespace character. -/
theorem C9_tab_stays_in_argument :
    engine_open sample_flags { sample_options with EngineCommand := ['a', TAB, 'b'] } child_os
      (fresh_engine [] false 0) = .child_exec [['a', TAB, 'b']] none ∧
    TAB ∈ ['a', TAB, 'b'] ∧ TAB = Char.ofNat 9 := by
  refine ⟨by decide, by decide, rfl⟩

end Posix

/-! ## The priority mapping -/

namespace Win32

/-- C10. `GetWin32Priority` is defined for every signed integer `nice` and is the step
function with breakpoints -15, 0 and +15: HIGH (0x80) below -15, ABOVE_NORMAL (0x8000)
from -15 up to -1, NORMAL (0x20) at 0, BELOW_NORMAL (0x4000) from 1 to 14, IDLE (0x40)
from 15 on; it is never REALTIME (0x100) nor any value but these five. -/
theorem C10_GetWin32Priority_steps (nice : Int) :
    (nice < -15 → GetWin32Priority nice = 0x80) ∧
    (-15 ≤ nice ∧ nice < 0 → GetWin32Priority nice = 0x8000) ∧
    (nice = 0 → GetWin32Priority nice = 0x20) ∧
    (0 < nice ∧ nice < 15 → GetWin32Priority nice = 0x4000) ∧
    (15 ≤ nice → GetWin32Priority nice = 0x40) ∧
    GetWin32Priority nice ≠ 0x100 ∧
    GetWin32Priority nice ∈ [0x80, 0x8000, 0x20, 0x4000, 0x40] := by
  unfold GetWin32Priority
  refine ⟨?_, ?_, ?_, ?_, ?_, ?_, ?_⟩
  · intro h; simp [h]
  · intro h
    have h1 : ¬ nice < -15 := by omega
    simp [h1, h.2]
  · intro h; subst h; simp
  · intro h
    have h1 : ¬ nice < -15 := by omega
    have h2 : ¬ nice < 0 := by omega
    have h3 : ¬ nice = 0 := by omega
    simp [h1, h2, h3, h.2]
  · intro h
    have h1 : ¬ nice < -15 := by omega
    have h2 : ¬ nice < 0 := by omega
    have h3 : ¬ nice = 0 := by omega
    have h4 : ¬ nice < 15 := by omega
    simp [h1, h2, h3, h4]
  · split_ifs <;> decide
  · split_ifs <;> decide

end Win32

/-! ## The drain of the OS-native half on the global `Engine` -/

namespace Win32

theorem LineInput_wait_spec (io : PipeStruct) (hp : io.chan.pipe_eof = true)
    (hl : io.lines = []) :
    ∀ pipe : List (List cstring), ∃ line io1, io.LineInput_wait pipe = some (line, io1) ∧
      io1.chan.pipe_eof = true ∧
      ((pipe.flatten = [] ∧ io1.eof = true ∧ held io1 = [] ∧
          io1.chan.log = io.chan.log ++ [.read none]) ∨
       (∃ rest, pipe.flatten = line :: rest ∧ io1.eof = io.eof ∧ held io1 = rest ∧
          io1.chan.log = io.chan.log ++ [.read (some line)])) := by
  intro pipe
  induction pipe with
  | nil =>
    simp only [PipeStruct.LineInput_wait, hp, if_true]
    refine ⟨_, _, rfl, rfl, Or.inl ?_⟩
    simp [held, hl]
  | cons c rest ih =>
    cases c with
    | nil =>
      obtain ⟨line, io1, h1, h2, h3⟩ := ih
      exact ⟨line, io1, by simpa [PipeStruct.LineInput_wait] using h1, h2, by simpa using h3⟩
    | cons l ls =>
      simp only [PipeStruct.LineInput_wait]
      refine ⟨_, _, rfl, hp, Or.inr ⟨ls ++ rest.flatten, ?_⟩⟩
      simp [held]

theorem LineInput_spec (io : PipeStruct) (hp : io.chan.pipe_eof = true) (he : io.eof = false) :
    ∃ line io1, io.LineInput = some (line, io1) ∧ io1.chan.pipe_eof = true ∧
      ((held io = [] ∧ io1.eof = true ∧ held io1 = [] ∧
          io1.chan.log = io.chan.log ++ [.read none]) ∨
       (∃ rest, held io = line :: rest ∧ io1.eof = false ∧ held io1 = rest ∧
          io1.chan.log = io.chan.log ++ [.read (some line)])) := by
  unfold PipeStruct.LineInput
  simp only [he, Bool.false_eq_true, if_false]
  cases hl : io.lines with
  | cons l rest =>
    refine ⟨l, _, rfl, by simpa [channel.record] using hp, Or.inr ⟨rest ++ io.chan.pipe.flatten, ?_⟩⟩
    simp [held, hl, channel.record]
  | nil =>
    obtain ⟨line, io1, h1, h2, h3⟩ := LineInput_wait_spec io hp hl io.chan.pipe
    refine ⟨line, io1, h1, h2, ?_⟩
    rcases h3 with ⟨a, b, c, d⟩ | ⟨rest, a, b, c, d⟩
    · exact Or.inl ⟨by simp [held, hl, a], b, c, d⟩
    · exact Or.inr ⟨rest, by simp [held, hl, a], by rw [b, he], c, d⟩

theorem engine_close_loop_Engine_drains (F : engine_flags) (hE : F.ENGINE_EOF ≠ 0) :
    ∀ (fuel : Nat) (w : world), w.Engine.io.eof = false → w.Engine.io.chan.pipe_eof = true →
      engine_eof F w.Engine = false → (held w.Engine.io).length + 2 ≤ fuel →
      ∃ w1, engine_close_loop F .Engine fuel w = some w1 ∧ engine_eof F w1.Engine = true ∧
        held w1.Engine.io = [] ∧ w1.other = w.other ∧
        w1.Engine.io.chan.log = w.Engine.io.chan.log ++
          (held w.Engine.io).map (fun l => io_event.read (some l)) ++ [.read none] := by
  intro fuel
  induction fuel with
  | zero => intro w _ _ _ h; omega
  | succ n ih =>
    intro w he hp hs hf
    obtain ⟨line, io1, h1, h2, h3⟩ := LineInput_spec w.Engine.io hp he
    unfold engine_close_loop
    simp only [world.deref, hs, Bool.false_eq_true, if_false, engine_get, h1]
    rcases h3 with ⟨a, b, c, d⟩ | ⟨rest, a, b, c, d⟩
    · simp only [PipeStruct.EOF_, b, if_true, world.assign]
      cases n with
      | zero => omega
      | succ n =>
        have heof : engine_eof F { io := io1, state := w.Engine.state ||| F.ENGINE_EOF } = true := by
          simpa [engine_eof] using or_and_self_ne_zero w.Engine.state _ hE
        unfold engine_close_loop
        simp only [world.deref, heof, if_true]
        exact ⟨_, rfl, heof, c, rfl, by simp [d, a]⟩
    · simp only [PipeStruct.EOF_, b, Bool.false_eq_true, if_false, world.assign]
      obtain ⟨w1, g1, g2, g3, g4, g5⟩ := ih
        { w with Engine := { w.Engine with io := io1 } } b h2 (by simpa [engine_eof] using hs)
        (by simp only [c]; rw [a] at hf; simp at hf; omega)
      exact ⟨w1, g1, g2, g3, g4, by rw [g5]; simp [d, a, c]⟩

/-- The OS-native `engine_close` of the global `Engine` drains fully: when its transport
holds lines followed by end-of-stream, it returns (with enough fuel), has read out every
line in order and then end-of-stream, and `Engine` is at end-of-stream. -/
theorem engine_close_Engine_drains (F : engine_flags) (hE : F.ENGINE_EOF ≠ 0) (fuel : Nat)
    (w : world) (he : w.Engine.io.eof = false) (hp : w.Engine.io.chan.pipe_eof = true)
    (hs : engine_eof F w.Engine = false) (hf : (held w.Engine.io).length + 2 ≤ fuel) :
    ∃ w1, engine_close F fuel w .Engine = some w1 ∧ engine_eof F w1.Engine = true ∧
      held w1.Engine.io = [] ∧
      w1.Engine.io.chan.log = w.Engine.io.chan.log ++ [.close] ++
        (held w.Engine.io).map (fun l => io_event.read (some l)) ++ [.read none, .kill] := by
  obtain ⟨w1, g1, g2, g3, _, g5⟩ := engine_close_loop_Engine_drains F hE fuel
    (w.assign .Engine { w.deref .Engine with io := (w.deref .Engine).io.Close })
    (by simpa [world.assign, world.deref, PipeStruct.Close] using he)
    (by simpa [world.assign, world.deref, PipeStruct.Close, channel.record] using hp)
    (by simpa [world.assign, world.deref, engine_eof] using hs)
    (by simpa [world.assign, world.deref, PipeStruct.Close, channel.record, held] using hf)
  unfold engine_close
  simp only [g1]
  refine ⟨_, rfl, ?_, ?_, ?_⟩
  · simpa [world.assign, world.deref, engine_eof] using g2
  · simpa [world.assign, world.deref, PipeStruct.Kill, channel.record, held] using g3
  · simp only [world.assign, world.deref, PipeStruct.Kill, channel.record, g5]
    simp [PipeStruct.Close, channel.record, held]

end Win32

/-! ## The priority a niceness of 5 gives -/

namespace Win32

/-- C11 (as amended). For every engine, `engine_set_nice_value(engine, 5)` applies the
class `GetWin32Priority(5)`, which is BELOW_NORMAL_PRIORITY_CLASS (0x4000): one band
below the default class NORMAL (0x20), and not the lowest class IDLE (0x40). The state
of the engine (its liveness) is as before. -/
theorem C11_nice_5_is_below_normal (w : world) (engine : engine_ref) :
    ((engine_set_nice_value w engine 5).deref engine).io.chan.priority_class
        = GetWin32Priority 5 ∧
    GetWin32Priority 5 = 0x4000 ∧ GetWin32Priority 5 ≠ 0x40 ∧
    ((engine_set_nice_value w engine 5).deref engine).state = (w.deref engine).state := by
  refine ⟨?_, by decide, by decide, ?_⟩ <;>
    cases engine <;> rfl

/-- C11, counterexample: the class for the value 5 is BELOW_NORMAL (0x4000), which is
below the default class NORMAL (0x20, the class of the value 0). -/
theorem C11_nice_5_lowers_the_class :
    GetWin32Priority 5 = 0x4000 ∧ GetWin32Priority 0 = 0x20 ∧ GetWin32Priority 5 ≠ 0x20 := by
  decide

end Win32

/-! ## The big-endian encoding of book entries -/

namespace BookMerge

theorem byte_of (n i : Nat) : (n >>> (i * 8)) &&& 0xFF = n / 256 ^ i % 256 := by
  rw [Nat.shiftRight_eq_div_pow, show (0xFF : Nat) = 2 ^ 8 - 1 from rfl,
    Nat.and_pow_two_sub_one_eq_mod]
  rw [Nat.mul_comm, pow_mul]; norm_num

theorem shift_or_byte (n b : Nat) (hn : n * 256 < 2 ^ 64) (hb : b < 256) :
    ((n <<< 8) % 2 ^ 64) ||| b = n * 256 + b := by
  rw [Nat.shiftLeft_eq, show (2 : Nat) ^ 8 = 256 from rfl, Nat.mod_eq_of_lt hn]
  have h := Nat.mul_add_lt_is_or (i := 8) (b := b) (by simpa using hb) n
  rw [show (2 : Nat) ^ 8 = 256 from rfl] at h
  rw [Nat.mul_comm n 256, h]

theorem write_integer_length (k n : Nat) : (write_integer k n).length = k := by
  induction k with
  | zero => rfl
  | succ i ih => simp [write_integer, ih]

theorem write_integer_eq (k n : Nat) :
    write_integer k n = (List.range k).map (fun j => n / 256 ^ (k - 1 - j) % 256) := by
  induction k with
  | zero => rfl
  | succ i ih =>
    rw [write_integer, byte_of, ih, List.range_succ_eq_map, List.map_cons, List.map_map]
    simp only [Nat.add_sub_cancel, Nat.sub_zero, List.cons.injEq, true_and]
    apply List.map_congr_left
    intro j hj
    have : j < i := List.mem_range.mp hj
    simp only [Function.comp, Nat.succ_eq_add_one]
    congr 3
    omega

theorem read_integer_loop_written (k : Nat) :
    ∀ (n acc : Nat) (pre post : List Nat), (acc + 1) * 256 ^ k ≤ 2 ^ 64 →
      read_integer_loop k (pre ++ write_integer k n ++ post) pre.length acc
        = some (acc * 256 ^ k + n % 256 ^ k, pre.length + k) := by
  induction k with
  | zero => intro n acc pre post _; simp [read_integer_loop, Nat.mod_one]
  | succ k ih =>
    intro n acc pre post hacc
    have hb : n / 256 ^ k % 256 < 256 := Nat.mod_lt _ (by norm_num)
    have hpow : (256 : Nat) ^ (k + 1) = 256 ^ k * 256 := pow_succ 256 k
    have hpos : 0 < (256 : Nat) ^ k := by positivity
    have hacc1 : acc * 256 < 2 ^ 64 := by
      have h1 : (acc + 1) * 256 ≤ (acc + 1) * 256 ^ (k + 1) := by
        rw [hpow]; nlinarith
      omega
    have hget : (pre ++ write_integer (k + 1) n ++ post)[pre.length]?
        = some (n / 256 ^ k % 256) := by
      rw [List.append_assoc, List.getElem?_append_right (le_refl _)]
      simp [write_integer, byte_of]
    rw [read_integer_loop, hget]
    simp only
    rw [shift_or_byte acc _ hacc1 hb]
    have hfile : pre ++ write_integer (k + 1) n ++ post
        = (pre ++ [n / 256 ^ k % 256]) ++ write_integer k n ++ post := by
      simp [write_integer, byte_of]
    have hlen : pre.length + 1 = (pre ++ [n / 256 ^ k % 256]).length := by simp
    rw [hfile, hlen, ih n _ _ post ?_]
    · congr 1
      simp only [List.length_append, List.length_singleton, Prod.mk.injEq]
      refine ⟨?_, by omega⟩
      rw [hpow, Nat.mod_mul]
      ring
    · rw [hpow] at hacc
      nlinarith

/-- What `read_integer` gives back on the bytes that `write_integer` put out. -/
theorem read_integer_written (size n : Nat) (hsize : size ≤ 8) (hn : n < 2 ^ (8 * size))
    (pre post : List Nat) :
    read_integer (pre ++ write_integer size n ++ post) pre.length size
      = some (n, pre.length + size) := by
  have hpow : (256 : Nat) ^ size = 2 ^ (8 * size) := by
    rw [show (256 : Nat) = 2 ^ 8 from rfl, ← pow_mul]
  have hle : (256 : Nat) ^ size ≤ 2 ^ 64 := by
    rw [hpow]; exact Nat.pow_le_pow_right (by norm_num) (by omega)
  rw [read_integer, read_integer_loop_written size n 0 pre post (by simpa using hle)]
  rw [hpow, Nat.mod_eq_of_lt hn]
  simp

end BookMerge

namespace BookMerge

theorem entry_bytes_eq (e : entry_t) :
    entry_bytes e = write_integer 8 e.key ++ (write_integer 2 e.move ++
      (write_integer 2 e.count ++ (write_integer 2 e.n ++ write_integer 2 e.sum))) := by
  simp [entry_bytes, write_entry]

theorem entry_bytes_length (e : entry_t) : (entry_bytes e).length = 16 := by
  simp [entry_bytes_eq, write_integer_length]

/-- What `read_entry` gives back on a file in which entry number `n` is the 16 bytes that
`write_entry` put out for `e`. -/
theorem read_entry_written (book : book_t) (n : Nat) (e : entry_t) (pre post : List Nat)
    (hfile : book.file = pre ++ entry_bytes e ++ post) (hpre : pre.length = n * 16)
    (hn : n < book.size) (hoff : n * 16 < 2 ^ 31) (he : entry_ok e) :
    read_entry book n = some (some e) := by
  obtain ⟨hk, hm, hc, hnn, hs⟩ := he
  have h1 : book.file = pre ++ write_integer 8 e.key ++ (write_integer 2 e.move ++
      (write_integer 2 e.count ++ (write_integer 2 e.n ++ (write_integer 2 e.sum ++ post)))) := by
    rw [hfile, entry_bytes_eq]; simp
  have h2 : book.file = (pre ++ write_integer 8 e.key) ++ write_integer 2 e.move ++
      (write_integer 2 e.count ++ (write_integer 2 e.n ++ (write_integer 2 e.sum ++ post))) := by
    rw [h1]; simp
  have h3 : book.file = (pre ++ write_integer 8 e.key ++ write_integer 2 e.move) ++
      write_integer 2 e.count ++ (write_integer 2 e.n ++ (write_integer 2 e.sum ++ post)) := by
    rw [h1]; simp
  have h4 : book.file = (pre ++ write_integer 8 e.key ++ write_integer 2 e.move ++
      write_integer 2 e.count) ++ write_integer 2 e.n ++ (write_integer 2 e.sum ++ post) := by
    rw [h1]; simp
  have h5 : book.file = (pre ++ write_integer 8 e.key ++ write_integer 2 e.move ++
      write_integer 2 e.count ++ write_integer 2 e.n) ++ write_integer 2 e.sum ++ post := by
    rw [h1]; simp
  have r1 : read_integer book.file (n * 16) 8 = some (e.key, n * 16 + 8) := by
    rw [h1, ← hpre]; exact read_integer_written 8 e.key (by norm_num) hk _ _
  have r2 : read_integer book.file (n * 16 + 8) 2 = some (e.move, n * 16 + 10) := by
    have := read_integer_written 2 e.move (by norm_num) hm (pre ++ write_integer 8 e.key)
      (write_integer 2 e.count ++ (write_integer 2 e.n ++ (write_integer 2 e.sum ++ post)))
    rw [← h2] at this
    simpa [write_integer_length, hpre] using this
  have r3 : read_integer book.file (n * 16 + 10) 2 = some (e.count, n * 16 + 12) := by
    have := read_integer_written 2 e.count (by norm_num) hc
      (pre ++ write_integer 8 e.key ++ write_integer 2 e.move)
      (write_integer 2 e.n ++ (write_integer 2 e.sum ++ post))
    rw [← h3] at this
    simpa [write_integer_length, hpre] using this
  have r4 : read_integer book.file (n * 16 + 12) 2 = some (e.n, n * 16 + 14) := by
    have := read_integer_written 2 e.n (by norm_num) hnn
      (pre ++ write_integer 8 e.key ++ write_integer 2 e.move ++ write_integer 2 e.count)
      (write_integer 2 e.sum ++ post)
    rw [← h4] at this
    simpa [write_integer_length, hpre] using this
  have r5 : read_integer book.file (n * 16 + 14) 2 = some (e.sum, n * 16 + 16) := by
    have := read_integer_written 2 e.sum (by norm_num) hs
      (pre ++ write_integer 8 e.key ++ write_integer 2 e.move ++ write_integer 2 e.count ++
        write_integer 2 e.n) post
    rw [← h5] at this
    simpa [write_integer_length, hpre] using this
  unfold read_entry
  simp only [ge_iff_le, Nat.not_le.mpr hn, Nat.not_le.mpr hoff, if_false, r1, r2, r3, r4, r5,
    Nat.mod_eq_of_lt hm, Nat.mod_eq_of_lt hc, Nat.mod_eq_of_lt hnn, Nat.mod_eq_of_lt hs]

/-- C14. Book entries round-trip through the big-endian encoding. For every `size` in
1..8 and every `n < 2^(8*size)`: `write_integer` emits exactly `size` bytes, the most
significant first, and `read_integer` over those bytes (wherever they stand in a file)
returns `n`. Hence for every entry whose fields are in the range of their types:
`write_entry` emits exactly 16 bytes (key 8, move 2, count 2, n 2, sum 2) and
`read_entry` over them returns the same entry. -/
theorem C14_entries_round_trip (size n : Nat) (e : entry_t)
    (_h1 : 1 ≤ size) (h8 : size ≤ 8) (hn : n < 2 ^ (8 * size)) (he : entry_ok e) :
    ((write_integer size n).length = size ∧
      write_integer size n = (List.range size).map (fun j => n / 256 ^ (size - 1 - j) % 256) ∧
      ∀ pre post : List Nat,
        read_integer (pre ++ write_integer size n ++ post) pre.length size
          = some (n, pre.length + size)) ∧
    ((write_entry [] e).length = 16 ∧
      write_entry [] e = write_integer 8 e.key ++ write_integer 2 e.move ++
        write_integer 2 e.count ++ write_integer 2 e.n ++ write_integer 2 e.sum ∧
      read_entry (book_open (write_entry [] e)) 0 = some (some e)) := by
  refine ⟨⟨write_integer_length size n, write_integer_eq size n,
    read_integer_written size n h8 hn⟩, entry_bytes_length e, by simp [write_entry], ?_⟩
  have hlen : (write_entry [] e).length = 16 := entry_bytes_length e
  exact read_entry_written (book_open (write_entry [] e)) 0 e [] []
    (by simp [book_open, entry_bytes]) rfl (by simp [book_open, hlen]) (by norm_num) he

/-- C14, witness: the integer 0x0e1c in two bytes and an example entry. -/
theorem C14_entries_round_trip_witness :
    ((write_integer 2 0x0e1c).length = 2 ∧
      write_integer 2 0x0e1c = (List.range 2).map (fun j => 0x0e1c / 256 ^ (2 - 1 - j) % 256) ∧
      ∀ pre post : List Nat,
        read_integer (pre ++ write_integer 2 0x0e1c ++ post) pre.length 2
          = some (0x0e1c, pre.length + 2)) ∧
    ((write_entry [] sample_entry).length = 16 ∧
      write_entry [] sample_entry = write_integer 8 sample_entry.key ++
        write_integer 2 sample_entry.move ++ write_integer 2 sample_entry.count ++
        write_integer 2 sample_entry.n ++ write_integer 2 sample_entry.sum ∧
      read_entry (book_open (write_entry [] sample_entry)) 0 = some (some sample_entry)) :=
  C14_entries_round_trip 2 0x0e1c sample_entry (by decide) (by decide) (by decide)
    (by unfold entry_ok sample_entry; decide)

end BookMerge

/-! ## The merge loop of `book_merge` -/

namespace BookMerge

theorem write_entry_eq (out : List Nat) (e : entry_t) :
    write_entry out e = out ++ entry_bytes e := by
  simp [write_entry, entry_bytes]

theorem drop_cons_facts (E : List entry_t) (i : Nat) (x : entry_t) (l : List entry_t)
    (h : E.drop i = x :: l) : i < E.length ∧ E[i]? = some x ∧ E.drop (i + 1) = l := by
  have hlt : i < E.length := by
    by_contra hc
    rw [List.drop_eq_nil_of_le (by omega)] at h
    cases h
  refine ⟨hlt, ?_, ?_⟩
  · have := List.getElem?_drop E i 0
    rw [h] at this
    simpa using this.symm
  · have := congrArg List.tail h
    simpa using this

/-- What the loop that looks for the next entry with a non-zero key does, on a book that
holds the entries `E`, from index `i`. -/
theorem next_entry_spec (book : book_t) (E : List entry_t) (hE : holds book E) :
    ∀ (l : List entry_t) (i : Nat), E.drop i = l → i ≤ E.length →
      ∀ (fuel : Nat) (e : entry_t), l.length + 1 ≤ fuel →
      ∃ b e' i', next_entry book fuel e i = some (b, e', i') ∧ i ≤ i' ∧ i' ≤ E.length ∧
        (E.drop i').filter nonzero = l.filter nonzero ∧
        ((l.filter nonzero = [] ∧ b = false) ∨
         (∃ rest, l.filter nonzero = e' :: rest ∧ b = true ∧ i' < E.length ∧
            (E.drop (i' + 1)).filter nonzero = rest)) := by
  intro l
  induction l with
  | nil =>
    intro i hl hi fuel e hf
    cases fuel with
    | zero => omega
    | succ f =>
      have hge : E.length ≤ i := by
        by_contra hc
        have := congrArg List.length hl
        simp at this
        omega
      have hread : read_entry book i = some none := by
        rw [hE.2 i, List.getElem?_eq_none hge]
      refine ⟨false, e, i, by simp [next_entry, hread], le_refl _, hi, by simp [hl], Or.inl ?_⟩
      simp
  | cons x l ih =>
    intro i hl hi fuel e hf
    obtain ⟨hlt, hget, hdrop⟩ := drop_cons_facts E i x l hl
    cases fuel with
    | zero => omega
    | succ f =>
      have hread : read_entry book i = some (some x) := by rw [hE.2 i, hget]
      by_cases hx : x.key = 0
      · have hnz : nonzero x = false := by simp [nonzero, hx]
        obtain ⟨b, e', i', h1, h2, h3, h4, h5⟩ := ih (i + 1) hdrop (by omega) f x
          (by simp at hf; omega)
        refine ⟨b, e', i', ?_, by omega, h3, ?_, ?_⟩
        · simp [next_entry, hread, hx, h1]
        · simp [List.filter, hnz, h4]
        · simpa [List.filter, hnz] using h5
      · have hnz : nonzero x = true := by simp [nonzero, hx]
        refine ⟨true, x, i, by simp [next_entry, hread, hx], le_refl _, hi, by rw [hl],
          Or.inr ⟨l.filter nonzero, ?_, rfl, hlt, by rw [hdrop]⟩⟩
        simp [List.filter, hnz]

theorem merge_entries_nil_left (l2 : List entry_t) : merge_entries [] l2 = (l2, 0) := by
  rw [merge_entries]

theorem merge_entries_nil_right (l1 : List entry_t) : merge_entries l1 [] = (l1, 0) := by
  cases l1 <;> rw [merge_entries]

end BookMerge

namespace BookMerge

theorem merge_entries_cons_cons (a b : entry_t) (l1 l2 : List entry_t) :
    merge_entries (a :: l1) (b :: l2) =
      if a.key < b.key then
        ((a :: (merge_entries l1 (b :: l2)).1), (merge_entries l1 (b :: l2)).2)
      else if a.key > b.key then
        ((b :: (merge_entries (a :: l1) l2).1), (merge_entries (a :: l1) l2).2)
      else ((merge_entries (a :: l1) l2).1, (merge_entries (a :: l1) l2).2 + 1) := by
  rw [merge_entries]

/-- The merge loop computes `merge_entries` of the entries with non-zero key that the two
books still hold from `i1` and `i2` on: it returns, having appended the bytes of the
entries written to the output file and added the entries skipped to `skip`. -/
theorem merge_loop_spec (In1 In2 : book_t) (E1 E2 : List entry_t)
    (h1 : holds In1 E1) (h2 : holds In2 E2) (fuel : Nat)
    (hf1 : E1.length + 1 ≤ fuel) (hf2 : E2.length + 1 ≤ fuel) :
    ∀ (k : Nat) (st : merge_state), st.i1 ≤ E1.length → st.i2 ≤ E2.length →
      (E1.length - st.i1) + (E2.length - st.i2) + 1 ≤ k →
      ∃ st', merge_loop In1 In2 fuel k st = some st' ∧
        st'.out = st.out ++
          (merge_entries ((E1.drop st.i1).filter nonzero)
            ((E2.drop st.i2).filter nonzero)).1.flatMap entry_bytes ∧
        st'.skip = st.skip +
          (merge_entries ((E1.drop st.i1).filter nonzero)
            ((E2.drop st.i2).filter nonzero)).2 := by
  intro k
  induction k with
  | zero => intro st _ _ h; omega
  | succ k ih =>
    intro st hi1 hi2 hk
    obtain ⟨b1, a, j1, hn1, hle1, hj1, hfil1, hc1⟩ :=
      next_entry_spec In1 E1 h1 (E1.drop st.i1) st.i1 rfl hi1 fuel st.e1
        (by simp only [List.length_drop]; omega)
    obtain ⟨b2, b, j2, hn2, hle2, hj2, hfil2, hc2⟩ :=
      next_entry_spec In2 E2 h2 (E2.drop st.i2) st.i2 rfl hi2 fuel st.e2
        (by simp only [List.length_drop]; omega)
    unfold merge_loop
    simp only [hn1, hn2]
    rcases hc1 with ⟨hl1, hb1⟩ | ⟨r1, hl1, hb1, hlt1, hr1⟩ <;>
      rcases hc2 with ⟨hl2, hb2⟩ | ⟨r2, hl2, hb2, hlt2, hr2⟩ <;>
      subst hb1 <;> subst hb2
    · simp only [Bool.not_false, Bool.and_self, if_true]
      refine ⟨_, rfl, ?_, ?_⟩ <;> simp [hl1, hl2, merge_entries_nil_left]
    · obtain ⟨st', g1, g2, g3⟩ := ih
        { st with i1 := j1, i2 := j2 + 1, e1 := a, e2 := b, out := write_entry st.out b }
        hj1 (by simpa using hlt2) (by simp only; omega)
      refine ⟨st', by simpa using g1, ?_, ?_⟩
      · rw [g2]
        simp only [hfil1, hr2, hl1, hl2, merge_entries_nil_left, write_entry_eq]
        simp
      · rw [g3]
        simp only [hfil1, hr2, hl1, hl2, merge_entries_nil_left]
    · obtain ⟨st', g1, g2, g3⟩ := ih
        { st with i1 := j1 + 1, i2 := j2, e1 := a, e2 := b, out := write_entry st.out a }
        (by simpa using hlt1) hj2 (by simp only; omega)
      refine ⟨st', by simpa using g1, ?_, ?_⟩
      · rw [g2]
        simp only [hfil2, hr1, hl1, hl2, merge_entries_nil_right, write_entry_eq]
        simp
      · rw [g3]
        simp only [hfil2, hr1, hl1, hl2, merge_entries_nil_right]
    · simp only [Bool.not_true, Bool.and_false, Bool.and_self, Bool.false_eq_true, if_false]
      rw [hl1, hl2, merge_entries_cons_cons]
      by_cases hlt : a.key < b.key
      · obtain ⟨st', g1, g2, g3⟩ := ih
          { st with i1 := j1 + 1, i2 := j2, e1 := a, e2 := b, out := write_entry st.out a }
          (by simpa using hlt1) hj2 (by simp only; omega)
        simp only [hlt, if_true]
        refine ⟨st', g1, ?_, ?_⟩
        · rw [g2]
          simp only [hfil2, hr1, hl2, write_entry_eq]
          simp
        · rw [g3]
          simp only [hfil2, hr1, hl2]
      · by_cases hgt : a.key > b.key
        · obtain ⟨st', g1, g2, g3⟩ := ih
            { st with i1 := j1, i2 := j2 + 1, e1 := a, e2 := b, out := write_entry st.out b }
            hj1 (by simpa using hlt2) (by simp only; omega)
          simp only [hlt, hgt, if_true, if_false]
          refine ⟨st', g1, ?_, ?_⟩
          · rw [g2]
            simp only [hfil1, hr2, hl1, write_entry_eq]
            simp
          · rw [g3]
            simp only [hfil1, hr2, hl1]
        · obtain ⟨st', g1, g2, g3⟩ := ih
            { st with i1 := j1, i2 := j2 + 1, e1 := a, e2 := b, skip := st.skip + 1 }
            hj1 (by simpa using hlt2) (by simp only; omega)
          simp only [hlt, hgt, if_false]
          refine ⟨st', g1, ?_, ?_⟩
          · rw [g2]
            simp only [hfil1, hr2, hl1]
          · rw [g3]
            simp only [hfil1, hr2, hl1]
            omega

end BookMerge

namespace BookMerge

theorem merge_induction (P : List entry_t → List entry_t → Prop)
    (h0 : ∀ l2, P [] l2) (h1 : ∀ a l1, P (a :: l1) [])
    (h2 : ∀ a l1 b l2, P l1 (b :: l2) → P (a :: l1) l2 → P (a :: l1) (b :: l2)) :
    ∀ l1 l2, P l1 l2 := by
  intro l1
  induction l1 with
  | nil => exact h0
  | cons a l1 ih1 =>
    intro l2
    induction l2 with
    | nil => exact h1 a l1
    | cons b l2 ih2 => exact h2 a l1 b l2 (ih1 (b :: l2)) ih2

theorem merge_entries_mem :
    ∀ l1 l2 : List entry_t, ∀ x ∈ (merge_entries l1 l2).1, x ∈ l1 ∨ x ∈ l2 := by
  apply merge_induction
  · intro l2 x hx; rw [merge_entries_nil_left] at hx; exact Or.inr hx
  · intro a l1 x hx; rw [merge_entries_nil_right] at hx; exact Or.inl hx
  · intro a l1 b l2 ih1 ih2 x hx
    rw [merge_entries_cons_cons] at hx
    split at hx
    · rcases List.mem_cons.mp hx with h | h
      · exact Or.inl (by simp [h])
      · rcases ih1 x h with h | h
        · exact Or.inl (by simp [h])
        · exact Or.inr h
    · split at hx
      · rcases List.mem_cons.mp hx with h | h
        · exact Or.inr (by simp [h])
        · rcases ih2 x h with h | h
          · exact Or.inl h
          · exact Or.inr (by simp [h])
      · rcases ih2 x hx with h | h
        · exact Or.inl h
        · exact Or.inr (by simp [h])

theorem merge_entries_sorted :
    ∀ l1 l2 : List entry_t, sorted_by_key l1 → sorted_by_key l2 →
      sorted_by_key (merge_entries l1 l2).1 := by
  apply merge_induction
  · intro l2 _ h2; rw [merge_entries_nil_left]; exact h2
  · intro a l1 h1 _; rw [merge_entries_nil_right]; exact h1
  · intro a l1 b l2 ih1 ih2 h1 h2
    have h1' := List.pairwise_cons.mp h1
    have h2' := List.pairwise_cons.mp h2
    rw [merge_entries_cons_cons]
    split
    · rename_i hlt
      refine List.pairwise_cons.mpr ⟨?_, ih1 h1'.2 h2⟩
      intro x hx
      rcases merge_entries_mem l1 (b :: l2) x hx with h | h
      · exact h1'.1 x h
      · rcases List.mem_cons.mp h with h | h
        · rw [h]; omega
        · have := h2'.1 x h; omega
    · split
      · rename_i hlt hgt
        refine List.pairwise_cons.mpr ⟨?_, ih2 h1 h2'.2⟩
        intro x hx
        rcases merge_entries_mem (a :: l1) l2 x hx with h | h
        · rcases List.mem_cons.mp h with h | h
          · rw [h]; omega
          · have := h1'.1 x h; omega
        · exact h2'.1 x h
      · exact ih2 h1 h2'.2

/-- What `merge_entries` writes and skips, told by a set of keys `K` that holds the keys
of the first list, every key of the second list that is in `K` being a key of the first
list: the entries written with a key in `K` are the first list, the others are the
entries of the second list with a key outside `K`, and the entries of the second list
with a key in `K` are skipped. -/
theorem merge_entries_split (K : List Nat) :
    ∀ l1 l2 : List entry_t, sorted_by_key l1 → sorted_by_key l2 →
      (∀ a ∈ l1, a.key ∈ K) → (∀ b ∈ l2, b.key ∈ K → ∃ a ∈ l1, a.key = b.key) →
      (merge_entries l1 l2).1.filter (fun x => decide (x.key ∈ K)) = l1 ∧
      (merge_entries l1 l2).1.filter (fun x => !decide (x.key ∈ K))
        = l2.filter (fun x => !decide (x.key ∈ K)) ∧
      (merge_entries l1 l2).2 = (l2.filter (fun x => decide (x.key ∈ K))).length := by
  apply merge_induction
  · intro l2 _ _ _ hK
    have hout : ∀ b ∈ l2, b.key ∉ K := by
      intro b hb hk
      obtain ⟨a, ha, _⟩ := hK b hb hk
      simp at ha
    rw [merge_entries_nil_left]
    refine ⟨?_, rfl, ?_⟩
    · simpa [List.filter_eq_nil_iff] using hout
    · have : l2.filter (fun x => decide (x.key ∈ K)) = [] := by
        simpa [List.filter_eq_nil_iff] using hout
      simp [this]
  · intro a l1 _ _ hin _
    rw [merge_entries_nil_right]
    refine ⟨?_, ?_, by simp⟩
    · simpa [List.filter_eq_self] using hin
    · simpa [List.filter_eq_nil_iff] using hin
  · intro a l1 b l2 ih1 ih2 h1 h2 hin hK
    have h1' := List.pairwise_cons.mp h1
    have h2' := List.pairwise_cons.mp h2
    have ha : a.key ∈ K := hin a (by simp)
    rw [merge_entries_cons_cons]
    split
    · rename_i hlt
      obtain ⟨g1, g2, g3⟩ := ih1 h1'.2 h2 (fun x hx => hin x (by simp [hx])) (by
        intro c hc hk
        obtain ⟨x, hx, hxk⟩ := hK c hc hk
        rcases List.mem_cons.mp hx with h | h
        · exfalso
          rcases List.mem_cons.mp hc with h' | h'
          · rw [h, h'] at hxk; omega
          · have := h2'.1 c h'; rw [h] at hxk; omega
        · exact ⟨x, h, hxk⟩)
      refine ⟨?_, ?_, g3⟩
      · simp [List.filter, ha, g1]
      · simp only [List.filter, ha, decide_True, Bool.not_true]
        exact g2
    · rename_i hlt
      have ih := ih2 h1 h2'.2 hin (fun c hc hk => hK c (by simp [hc]) hk)
      obtain ⟨g1, g2, g3⟩ := ih
      split
      · rename_i hgt
        have hb : b.key ∉ K := by
          intro hk
          obtain ⟨x, hx, hxk⟩ := hK b (by simp) hk
          rcases List.mem_cons.mp hx with h | h
          · rw [h] at hxk; omega
          · have := h1'.1 x h; omega
        refine ⟨?_, ?_, ?_⟩
        · simp [List.filter, hb, g1]
        · simp [List.filter, hb, g2]
        · simp [List.filter, hb, g3]
      · rename_i hgt
        have hab : a.key = b.key := by omega
        have hb : b.key ∈ K := hab ▸ ha
        refine ⟨g1, ?_, ?_⟩
        · simp [List.filter, hb, g2]
        · simp [List.filter, hb, g3]

end BookMerge

namespace BookMerge

theorem read_integer_loop_returns (k : Nat) :
    ∀ (file : List Nat) (pos acc : Nat), pos + k ≤ file.length →
      ∃ v, read_integer_loop k file pos acc = some (v, pos + k) := by
  induction k with
  | zero => intro file pos acc _; exact ⟨acc, rfl⟩
  | succ k ih =>
    intro file pos acc h
    have hlt : pos < file.length := by omega
    obtain ⟨v, hv⟩ := ih file (pos + 1) (((acc <<< 8) % 2 ^ 64) ||| file[pos]) (by omega)
    refine ⟨v, ?_⟩
    rw [read_integer_loop, List.getElem?_eq_getElem hlt]
    simp only
    rw [hv]
    congr 2
    omega

theorem read_entry_returns (book : book_t) (n : Nat) (hn : n < book.size)
    (hoff : n * 16 < 2 ^ 31) (hfile : n * 16 + 16 ≤ book.file.length) :
    ∃ e, read_entry book n = some (some e) := by
  obtain ⟨v1, r1⟩ := read_integer_loop_returns 8 book.file (n * 16) 0 (by omega)
  obtain ⟨v2, r2⟩ := read_integer_loop_returns 2 book.file (n * 16 + 8) 0 (by omega)
  obtain ⟨v3, r3⟩ := read_integer_loop_returns 2 book.file (n * 16 + 8 + 2) 0 (by omega)
  obtain ⟨v4, r4⟩ := read_integer_loop_returns 2 book.file (n * 16 + 8 + 2 + 2) 0 (by omega)
  obtain ⟨v5, r5⟩ := read_integer_loop_returns 2 book.file (n * 16 + 8 + 2 + 2 + 2) 0 (by omega)
  unfold read_entry read_integer
  simp only [ge_iff_le, Nat.not_le.mpr hn, Nat.not_le.mpr hoff, if_false, r1, r2, r3, r4, r5]
  exact ⟨_, rfl⟩

/-- A book file shorter than 2^31 bytes holds its entries: `read_entry` returns every one
of them. -/
theorem book_open_holds (c : List Nat) (hlen : c.length < 2 ^ 31) :
    holds (book_open c) (book_entries (book_open c)) := by
  have hread : ∀ n, n < (book_open c).size → ∃ e, read_entry (book_open c) n = some (some e) := by
    intro n hn
    have h16 : n * 16 + 16 ≤ c.length := by
      have : n < c.length / 16 := hn
      have := Nat.div_mul_le_self c.length 16
      have : (n + 1) * 16 ≤ c.length / 16 * 16 := Nat.mul_le_mul_right 16 (by omega)
      omega
    exact read_entry_returns (book_open c) n hn (by omega) h16
  have hmap : book_entries (book_open c)
      = (List.range (book_open c).size).map
          (fun n => ((read_entry (book_open c) n).join).getD zero_entry) := by
    unfold book_entries
    rw [← List.filterMap_eq_map]
    apply List.filterMap_congr
    intro n hn
    obtain ⟨e, he⟩ := hread n (List.mem_range.mp hn)
    simp [he]
  have hlength : (book_entries (book_open c)).length = (book_open c).size := by
    rw [hmap]; simp
  refine ⟨hlength.symm, ?_⟩
  intro n
  by_cases hn : n < (book_open c).size
  · obtain ⟨e, he⟩ := hread n hn
    rw [hmap, List.getElem?_map, List.getElem?_range hn, he]
    simp [he]
  · rw [List.getElem?_eq_none (by omega)]
    simp [read_entry, Nat.not_lt.mp hn]

/-- C12 (as amended). For every pair of input book files shorter than 2^31 bytes whose
16-byte entries are sorted by key in non-decreasing order: the merge loop of `book_merge`
terminates; the entries it writes after the header are, in non-decreasing key order,
exactly the entries of the first book with non-zero key (every one, in their original
order: they are the entries written whose key occurs in the first book) together with
the entries of the second book with non-zero key whose key occurs in no entry of the
first book; and the skip counter equals the number of non-zero-key entries of the second
book whose key does occur in the first. -/
theorem C12_merge_loop (c1 c2 : List Nat) (e1 e2 : entry_t) (header : List Nat)
    (hlen1 : c1.length < 2 ^ 31) (hlen2 : c2.length < 2 ^ 31)
    (hs1 : sorted_by_key (book_entries (book_open c1)))
    (hs2 : sorted_by_key (book_entries (book_open c2))) :
    ∃ st outs,
      merge_loop (book_open c1) (book_open c2) (c1.length + c2.length + 1)
        (c1.length + c2.length + 1) (merge_start e1 e2 header) = some st ∧
      st.out = header ++ outs.flatMap entry_bytes ∧
      sorted_by_key outs ∧
      outs.filter (fun x => decide (x.key ∈ (book_entries (book_open c1)).map (·.key)))
        = (book_entries (book_open c1)).filter nonzero ∧
      outs.filter (fun x => !decide (x.key ∈ (book_entries (book_open c1)).map (·.key)))
        = (book_entries (book_open c2)).filter
            (fun x => nonzero x &&
              !decide (x.key ∈ (book_entries (book_open c1)).map (·.key))) ∧
      st.skip = ((book_entries (book_open c2)).filter
            (fun x => nonzero x &&
              decide (x.key ∈ (book_entries (book_open c1)).map (·.key)))).length := by
  have h1 := book_open_holds c1 hlen1
  have h2 := book_open_holds c2 hlen2
  have hl1 : (book_entries (book_open c1)).length ≤ c1.length := by
    rw [← h1.1]; exact Nat.div_le_self _ _
  have hl2 : (book_entries (book_open c2)).length ≤ c2.length := by
    rw [← h2.1]; exact Nat.div_le_self _ _
  obtain ⟨st, g1, g2, g3⟩ := merge_loop_spec (book_open c1) (book_open c2) _ _ h1 h2
    (c1.length + c2.length + 1) (by omega) (by omega) (c1.length + c2.length + 1)
    (merge_start e1 e2 header) (Nat.zero_le _) (Nat.zero_le _)
    (by simp only [merge_start]; omega)
  simp only [merge_start, List.drop_zero, Nat.zero_add] at g2 g3
  have hsplit := merge_entries_split ((book_entries (book_open c1)).map (·.key))
    ((book_entries (book_open c1)).filter nonzero) ((book_entries (book_open c2)).filter nonzero)
    (List.Pairwise.filter _ hs1) (List.Pairwise.filter _ hs2)
    (by
      intro a ha
      exact List.mem_map_of_mem _ (List.mem_filter.mp ha).1)
    (by
      intro b hb hk
      obtain ⟨a, ha, hak⟩ := List.mem_map.mp hk
      have hbnz := (List.mem_filter.mp hb).2
      refine ⟨a, List.mem_filter.mpr ⟨ha, ?_⟩, hak⟩
      simp only [nonzero] at hbnz ⊢
      rw [hak]; exact hbnz)
  refine ⟨st, _, g1, g2, ?_, hsplit.1, ?_, ?_⟩
  · exact merge_entries_sorted _ _ (List.Pairwise.filter _ hs1) (List.Pairwise.filter _ hs2)
  · rw [hsplit.2.1, List.filter_filter]
    congr 1
    funext x
    exact Bool.and_comm _ _
  · rw [g3, hsplit.2.2, List.filter_filter]
    congr 2
    funext x
    exact Bool.and_comm _ _

end BookMerge

namespace BookMerge

/-- C12, witness: the merge of the two example books. -/
theorem C12_merge_loop_witness :
    ∃ st outs,
      merge_loop (book_open sample_book_1) (book_open sample_book_2)
        (sample_book_1.length + sample_book_2.length + 1)
        (sample_book_1.length + sample_book_2.length + 1)
        (merge_start zero_entry zero_entry []) = some st ∧
      st.out = [] ++ outs.flatMap entry_bytes ∧
      sorted_by_key outs ∧
      outs.filter
          (fun x => decide (x.key ∈ (book_entries (book_open sample_book_1)).map (·.key)))
        = (book_entries (book_open sample_book_1)).filter nonzero ∧
      outs.filter
          (fun x => !decide (x.key ∈ (book_entries (book_open sample_book_1)).map (·.key)))
        = (book_entries (book_open sample_book_2)).filter
            (fun x => nonzero x &&
              !decide (x.key ∈ (book_entries (book_open sample_book_1)).map (·.key))) ∧
      st.skip = ((book_entries (book_open sample_book_2)).filter
            (fun x => nonzero x &&
              decide (x.key ∈ (book_entries (book_open sample_book_1)).map (·.key)))).length :=
  C12_merge_loop sample_book_1 sample_book_2 zero_entry zero_entry [] (by decide) (by decide)
    (by unfold sorted_by_key; decide) (by unfold sorted_by_key; decide)

theorem read_integer_loop_zeros (N k : Nat) :
    ∀ pos : Nat, pos + k ≤ N →
      read_integer_loop k (List.replicate N 0) pos 0 = some (0, pos + k) := by
  induction k with
  | zero => intro pos _; rfl
  | succ k ih =>
    intro pos h
    have hlt : pos < N := by omega
    rw [read_integer_loop, List.getElem?_replicate, if_pos hlt]
    simp only [Nat.zero_shiftLeft, Nat.zero_mod, Nat.or_self]
    rw [ih (pos + 1) (by omega)]
    congr 2
    omega

theorem read_entry_zeros (N n : Nat) (hn : n < N / 16) (hoff : n * 16 < 2 ^ 31) :
    read_entry (book_open (List.replicate N 0)) n = some (some zero_entry) := by
  have h16 : n * 16 + 16 ≤ N := by
    have := Nat.div_mul_le_self N 16
    have : (n + 1) * 16 ≤ N / 16 * 16 := Nat.mul_le_mul_right 16 (by omega)
    omega
  have hsz : (book_open (List.replicate N 0)).size = N / 16 := by simp [book_open]
  unfold read_entry read_integer
  simp only [hsz, ge_iff_le, Nat.not_le.mpr hn, Nat.not_le.mpr hoff, if_false]
  simp only [book_open, read_integer_loop_zeros N 8 (n * 16) (by omega),
    read_integer_loop_zeros N 2 (n * 16 + 8) (by omega),
    read_integer_loop_zeros N 2 (n * 16 + 8 + 2) (by omega),
    read_integer_loop_zeros N 2 (n * 16 + 8 + 2 + 2) (by omega),
    read_integer_loop_zeros N 2 (n * 16 + 8 + 2 + 2 + 2) (by omega)]
  rfl

theorem read_entry_overflow (N : Nat) (hN : 2 ^ 31 + 16 ≤ N) :
    read_entry (book_open (List.replicate N 0)) (2 ^ 27) = none := by
  have hsz : ¬ 2 ^ 27 ≥ (book_open (List.replicate N 0)).size := by
    have : (2 ^ 31 + 16) / 16 ≤ N / 16 := Nat.div_le_div_right hN
    simp only [book_open, List.length_replicate]
    omega
  unfold read_entry
  rw [if_neg hsz]
  rfl

theorem next_entry_zeros (N : Nat) (hN : 2 ^ 31 + 16 ≤ N) :
    ∀ (d i : Nat), i + d = 2 ^ 27 → ∀ (fuel : Nat) (e : entry_t),
      next_entry (book_open (List.replicate N 0)) fuel e i = none := by
  have hsize : 2 ^ 27 < N / 16 := by
    have : (2 ^ 31 + 16) / 16 ≤ N / 16 := Nat.div_le_div_right hN
    omega
  intro d
  induction d with
  | zero =>
    intro i hi fuel e
    have hi' : i = 2 ^ 27 := by omega
    subst hi'
    cases fuel with
    | zero => rfl
    | succ f => rw [next_entry, read_entry_overflow N hN]
  | succ d ih =>
    intro i hi fuel e
    cases fuel with
    | zero => rfl
    | succ f =>
      rw [next_entry, read_entry_zeros N i (by omega) (by omega)]
      simp only [zero_entry, if_true]
      rw [if_pos (by omega)]
      exact ih (i + 1) (by omega) f _

theorem book_entries_zeros (N : Nat) :
    ∀ x ∈ book_entries (book_open (List.replicate N 0)), x = zero_entry := by
  intro x hx
  obtain ⟨n, hn, hr⟩ := List.mem_filterMap.mp hx
  have hn' : n < N / 16 := by simpa [book_open] using List.mem_range.mp hn
  by_cases hoff : n * 16 < 2 ^ 31
  · rw [read_entry_zeros N n hn' hoff] at hr
    simpa using hr.symm
  · have : read_entry (book_open (List.replicate N 0)) n = none := by
      unfold read_entry
      have hsz : ¬ n ≥ (book_open (List.replicate N 0)).size := by
        simp only [book_open, List.length_replicate]; omega
      rw [if_neg hsz, if_pos (by omega)]
    rw [this] at hr
    simp at hr

/-- C12, counterexample: the first book is a file of 2^31 + 16 zero bytes (sorted: all its
keys are 0), the second is empty. The merge loop does not terminate normally, whatever
the fuel: at entry number 2^27 the offset `n*16` of `read_entry` is 2^31, beyond `int`. -/
theorem C12_book_of_2_GiB_is_not_merged :
    sorted_by_key (book_entries (book_open big_book)) ∧
    sorted_by_key (book_entries (book_open [])) ∧
    ∀ fuel k : Nat,
      merge_loop (book_open big_book) (book_open []) fuel k
        (merge_start zero_entry zero_entry []) = none := by
  refine ⟨?_, ?_, ?_⟩
  · apply List.pairwise_of_forall_mem_list
    intro a ha b hb
    rw [book_entries_zeros _ a ha, book_entries_zeros _ b hb]
  · simp [sorted_by_key, book_entries, book_open]
  · intro fuel k
    cases k with
    | zero => rfl
    | succ k =>
      rw [merge_loop]
      simp only [merge_start]
      rw [show big_book = List.replicate (2 ^ 31 + 16) 0 from rfl,
        next_entry_zeros _ (le_refl _) (2 ^ 27) 0 (by omega) fuel zero_entry]

end BookMerge

/-! ## `parse_line` -/

namespace Main

theorem strchr_spec (c : Char) (hc : c ≠ NUL) (s rest : List Char) (hs : NUL ∉ s) :
    ∀ i : Nat, strchr (s ++ NUL :: rest) c i
      = if c ∈ s then some (i + (s.takeWhile (fun x => x != c)).length) else none := by
  induction s with
  | nil => intro i; simp [strchr, Ne.symm hc]
  | cons x xs ih =>
    intro i
    have hx : x ≠ NUL := fun e => hs (by simp [e])
    have hxs : NUL ∉ xs := fun e => hs (by simp [e])
    by_cases hxc : x = c
    · subst hxc; simp [strchr]
    · have hcx : c ≠ x := fun e => hxc e.symm
      have hb : (x != c) = true := by simpa using hxc
      rw [List.cons_append, strchr]
      simp only [hxc, hx, if_false]
      rw [ih hxs (i + 1)]
      by_cases hmem : c ∈ xs
      · simp only [hmem, if_true, List.mem_cons, or_true, List.takeWhile, hb, List.length_cons]
        congr 1
        omega
      · simp [hmem, hcx]

theorem takeWhile_split (c : Char) (s : List Char) (h : c ∈ s) :
    s = s.takeWhile (fun x => x != c) ++ c :: (s.dropWhile (fun x => x != c)).drop 1 := by
  induction s with
  | nil => simp at h
  | cons x xs ih =>
    by_cases hxc : x = c
    · subst hxc; simp [List.takeWhile, List.dropWhile]
    · have hcx : c ≠ x := fun e => hxc e.symm
      have : c ∈ xs := by simpa [hcx] using h
      have hb : (x != c) = true := by simpa using hxc
      simp only [List.takeWhile, List.dropWhile, hb, List.cons_append]
      rw [← ih this]

theorem set_cut (t u : List Char) (c : Char) :
    (t ++ c :: u).set t.length NUL = t ++ NUL :: u := by
  induction t with
  | nil => rfl
  | cons x xs ih => simp [ih]

/-- Cutting the C string held by an array at the first `c`. -/
theorem cut_step (c : Char) (hc : c ≠ NUL) (s rest : List Char) (hs : NUL ∉ s) :
    ∃ rest', remove_comment (s ++ NUL :: rest) c
      = s.takeWhile (fun x => x != c) ++ NUL :: rest' := by
  unfold remove_comment
  rw [strchr_spec c hc s rest hs 0]
  by_cases h : c ∈ s
  · simp only [h, if_true, Nat.zero_add]
    refine ⟨(s.dropWhile (fun x => x != c)).drop 1 ++ NUL :: rest, ?_⟩
    have key : ∀ t u : List Char, s = t ++ c :: u →
        (s ++ NUL :: rest).set t.length NUL = t ++ NUL :: (u ++ NUL :: rest) := by
      intro t u e
      subst e
      simp
    exact key _ _ (takeWhile_split c s h)
  · simp only [h, if_false]
    refine ⟨rest, ?_⟩
    have : s.takeWhile (fun x => x != c) = s := by
      rw [List.takeWhile_eq_self_iff]
      intro x hx
      have : x ≠ c := fun e => h (e ▸ hx)
      simpa using this
    rw [this]

theorem skip_spaces_eq (l : List Char) :
    ∀ i : Nat, skip_spaces l i = i + (l.takeWhile (fun c => c == ' ')).length := by
  induction l with
  | nil => intro i; rfl
  | cons x xs ih =>
    intro i
    by_cases hx : x = ' '
    · subst hx
      simp only [skip_spaces, if_true, ih, List.takeWhile, beq_self_eq_true, List.length_cons]
      omega
    · have hb : (x == ' ') = false := by simpa using hx
      simp [skip_spaces, hx, List.takeWhile, hb]

theorem takeWhile_stop (p : Char → Bool) (m r : List Char) (x : Char) (hx : p x = false) :
    (m ++ x :: r).takeWhile p = m.takeWhile p := by
  induction m with
  | nil => simp [List.takeWhile, hx]
  | cons a m ih =>
    cases ha : p a <;> simp [List.takeWhile, ha, ih]

theorem strip_trailing_append_space (m : List Char) :
    strip_trailing (m ++ [' ']) = strip_trailing m := by
  simp [strip_trailing, List.dropWhile]

theorem strip_trailing_append_other (m : List Char) (x : Char) (hx : x ≠ ' ') :
    strip_trailing (m ++ [x]) = m ++ [x] := by
  have hb : (x == ' ') = false := by simpa using hx
  simp [strip_trailing, List.dropWhile, hb]

theorem getD_middle (pre r : List Char) (x : Char) :
    (pre ++ x :: r).getD pre.length NUL = x := by
  rw [List.getD_eq_getElem?_getD, List.getElem?_append_right (le_refl _)]
  simp

theorem trim_back_eq (pre : List Char) (m : List Char) :
    ∀ post : List Char, trim_back (pre ++ m ++ post) pre.length (pre.length + m.length)
      = pre.length + (strip_trailing m).length := by
  induction m using List.reverseRecOn with
  | nil =>
    intro post
    simp only [List.append_nil, List.length_nil, Nat.add_zero, strip_trailing, List.reverse_nil,
      List.dropWhile_nil]
    cases h : pre.length with
    | zero => rfl
    | succ n => simp [trim_back]
  | append_singleton m x ih =>
    intro post
    have hlen : pre.length + (m ++ [x]).length = (pre.length + m.length) + 1 := by
      simp; omega
    have hget : (pre ++ (m ++ [x]) ++ post).getD (pre.length + m.length) NUL = x := by
      have := getD_middle (pre ++ m) post x
      simpa using this
    rw [hlen, trim_back, hget]
    by_cases hx : x = ' '
    · subst hx
      have hlt : pre.length < pre.length + m.length + 1 := by omega
      simp only [hlt, true_and, if_true]
      have := ih ([' '] ++ post)
      have e : pre ++ m ++ ([' '] ++ post) = pre ++ (m ++ [' ']) ++ post := by simp
      rw [e] at this
      rw [this, strip_trailing_append_space]
    · simp only [hx, and_false, if_false]
      rw [strip_trailing_append_other m x hx]
      simp; omega

theorem strip_trailing_split (t : List Char) :
    ∃ trail, t = strip_trailing t ++ trail ∧ ∀ c ∈ trail, c = ' ' := by
  refine ⟨(t.reverse.takeWhile (fun c => c == ' ')).reverse, ?_, ?_⟩
  · have := List.takeWhile_append_dropWhile (fun c => c == ' ') t.reverse
    have h2 := congrArg List.reverse this
    simp only [List.reverse_append, List.reverse_reverse] at h2
    exact h2.symm
  · intro c hc
    have := List.mem_takeWhile_imp (List.mem_reverse.mp hc)
    simpa using this

theorem strlen_eq (v r : List Char) (hv : NUL ∉ v) : strlen (v ++ NUL :: r) = v.length := by
  induction v with
  | nil => simp [strlen]
  | cons x xs ih =>
    have hx : x ≠ NUL := fun e => hv (by simp [e])
    have hxs : NUL ∉ xs := fun e => hv (by simp [e])
    simp [strlen, hx, ih hxs]

theorem c_string_at_shape (pre t post : List Char) (ht : NUL ∉ t) :
    c_string_at (pre ++ t ++ NUL :: post) pre.length = t := by
  unfold c_string_at
  rw [List.append_assoc, List.drop_left]
  induction t with
  | nil => simp [List.takeWhile]
  | cons x xs ih =>
    have hx : x ≠ NUL := fun e => ht (by simp [e])
    have hxs : NUL ∉ xs := fun e => ht (by simp [e])
    have hb : (x != NUL) = true := by simpa using hx
    simp [List.takeWhile, hb, ih hxs]

theorem getD_shape (pre t post : List Char) (ht : NUL ∉ t) :
    (pre ++ t ++ NUL :: post).getD pre.length NUL = NUL ↔ t = [] := by
  cases t with
  | nil =>
    have := getD_middle pre post NUL
    simpa using this
  | cons x xs =>
    have hx : x ≠ NUL := fun e => ht (by simp [e])
    have := getD_middle pre (xs ++ NUL :: post) x
    simp only [List.append_assoc, List.cons_append] at this ⊢
    rw [this]
    simp [hx]

theorem trim_region (pre m post : List Char) (x : Char) (hx : x ≠ ' ') :
    ∃ pre' post',
      (pre ++ m ++ x :: post).set
          (trim_back (pre ++ m ++ x :: post) (skip_spaces (m ++ x :: post) pre.length)
            (pre.length + m.length)) NUL
        = pre' ++ strip_spaces m ++ NUL :: post' ∧
      skip_spaces (m ++ x :: post) pre.length = pre'.length ∧
      trim_back (pre ++ m ++ x :: post) (skip_spaces (m ++ x :: post) pre.length)
          (pre.length + m.length) = pre'.length + (strip_spaces m).length ∧
      pre'.length + (strip_spaces m).length ≤ pre.length + m.length ∧
      pre.length ≤ pre'.length := by
  have hxb : (x == ' ') = false := by simpa using hx
  have hm : m = m.takeWhile (fun c => c == ' ') ++ m.dropWhile (fun c => c == ' ') :=
    (List.takeWhile_append_dropWhile _ m).symm
  obtain ⟨trail, hsplit, _⟩ := strip_trailing_split (m.dropWhile (fun c => c == ' '))
  have hstart : skip_spaces (m ++ x :: post) pre.length
      = (pre ++ m.takeWhile (fun c => c == ' ')).length := by
    rw [skip_spaces_eq, takeWhile_stop _ m post x hxb]; simp
  have hlen : pre.length + m.length
      = (pre ++ m.takeWhile (fun c => c == ' ')).length
          + (m.dropWhile (fun c => c == ' ')).length := by
    have := congrArg List.length hm
    simp only [List.length_append] at this ⊢
    omega
  have hbuf : pre ++ m ++ x :: post
      = (pre ++ m.takeWhile (fun c => c == ' ')) ++ m.dropWhile (fun c => c == ' ')
          ++ x :: post := by
    conv_lhs => rw [hm]
    simp
  have htb : trim_back (pre ++ m ++ x :: post) (skip_spaces (m ++ x :: post) pre.length)
      (pre.length + m.length)
      = (pre ++ m.takeWhile (fun c => c == ' ')).length + (strip_spaces m).length := by
    rw [hstart, hlen, hbuf]
    exact trim_back_eq _ _ _
  obtain ⟨y, R, hyR⟩ : ∃ y R, trail ++ x :: post = y :: R := by
    cases trail with
    | nil => exact ⟨x, post, rfl⟩
    | cons a t => exact ⟨a, t ++ x :: post, rfl⟩
  have hbuf2 : pre ++ m ++ x :: post
      = (pre ++ m.takeWhile (fun c => c == ' ') ++ strip_spaces m) ++ y :: R := by
    rw [hbuf, ← hyR]
    conv_lhs => rw [hsplit]
    simp [strip_spaces]
  refine ⟨pre ++ m.takeWhile (fun c => c == ' '), R, ?_, hstart, htb, ?_, by simp⟩
  · have hidx : (pre ++ m.takeWhile (fun c => c == ' ')).length + (strip_spaces m).length
        = (pre ++ m.takeWhile (fun c => c == ' ') ++ strip_spaces m).length := by
      simp only [List.length_append]
    rw [htb, hidx]
    conv_lhs => rw [hbuf2]
    exact set_cut _ _ _
  · rw [hlen]
    have : (strip_spaces m).length ≤ (m.dropWhile (fun c => c == ' ')).length := by
      conv_rhs => rw [hsplit]
      simp [strip_spaces]
    omega

theorem mem_of_mem_strip_spaces (m : List Char) (a : Char) (h : a ∈ strip_spaces m) : a ∈ m := by
  unfold strip_spaces strip_trailing at h
  have h1 := List.mem_reverse.mp h
  have h2 := (List.dropWhile_sublist _).subset h1
  have h3 := List.mem_reverse.mp h2
  exact (List.dropWhile_sublist _).subset h3

theorem takeWhile_all (p : Char → Bool) (n r : List Char) (x : Char) (hn : ∀ a ∈ n, p a = true)
    (hx : p x = false) : (n ++ x :: r).takeWhile p = n := by
  induction n with
  | nil => simp [List.takeWhile, hx]
  | cons a n ih =>
    have ha := hn a (by simp)
    simp [List.takeWhile, ha, ih (fun b hb => hn b (by simp [hb]))]

theorem parse_line_split_at (n0 v0 rest : List Char) (hn : NUL ∉ n0) (hv : NUL ∉ v0)
    (hne : '=' ∉ n0) :
    parse_line_split (n0 ++ '=' :: (v0 ++ NUL :: rest))
      = if strip_spaces n0 ≠ [] ∧ strip_spaces v0 ≠ [] then
          some (strip_spaces n0, strip_spaces v0)
        else none := by
  have hs : NUL ∉ n0 ++ '=' :: v0 := by
    simp only [List.mem_append, List.mem_cons, not_or]
    exact ⟨hn, by decide, hv⟩
  have htw : (n0 ++ '=' :: v0).takeWhile (fun x => x != '=') = n0 :=
    takeWhile_all _ n0 v0 '=' (by
      intro a ha
      have : a ≠ '=' := fun e => hne (e ▸ ha)
      simpa using this) (by simp)
  have hch : strchr (n0 ++ '=' :: (v0 ++ NUL :: rest)) '=' 0 = some n0.length := by
    have := strchr_spec '=' (by decide) (n0 ++ '=' :: v0) rest hs 0
    simp only [List.append_assoc, List.cons_append] at this
    rw [this, htw]
    simp
  have hsn : NUL ∉ strip_spaces n0 := fun h => hn (mem_of_mem_strip_spaces _ _ h)
  have hsv : NUL ∉ strip_spaces v0 := fun h => hv (mem_of_mem_strip_spaces _ _ h)
  unfold parse_line_split
  rw [hch]
  simp only
  -- the name
  obtain ⟨pre1, post1, h1, hstart1, htb1, hle1, _⟩ :=
    trim_region [] n0 (v0 ++ NUL :: rest) '=' (by decide)
  simp only [List.nil_append, List.length_nil, Nat.zero_add] at h1 hstart1 htb1 hle1
  have hdrop : ((n0 ++ '=' :: (v0 ++ NUL :: rest)).set
      (trim_back (n0 ++ '=' :: (v0 ++ NUL :: rest))
        (skip_spaces (n0 ++ '=' :: (v0 ++ NUL :: rest)) 0) n0.length) NUL).drop (n0.length + 1)
      = v0 ++ NUL :: rest := by
    rw [List.drop_set_of_lt _ _ (by rw [htb1]; omega)]
    simp
  have hlen3 : ((n0 ++ '=' :: (v0 ++ NUL :: rest)).set
      (trim_back (n0 ++ '=' :: (v0 ++ NUL :: rest))
        (skip_spaces (n0 ++ '=' :: (v0 ++ NUL :: rest)) 0) n0.length) NUL).length
      = n0.length + 1 + (v0.length + 1 + rest.length) := by
    simp; omega
  generalize (n0 ++ '=' :: (v0 ++ NUL :: rest)).set
      (trim_back (n0 ++ '=' :: (v0 ++ NUL :: rest))
        (skip_spaces (n0 ++ '=' :: (v0 ++ NUL :: rest)) 0) n0.length) NUL = B3
    at h1 hdrop hlen3 ⊢
  rw [hstart1, hdrop, strlen_eq v0 rest hv]
  -- the value
  have hpre : (B3.take (n0.length + 1)).length = n0.length + 1 := by
    rw [List.length_take, hlen3]; omega
  have hB3 : B3.take (n0.length + 1) ++ v0 ++ NUL :: rest = B3 := by
    rw [List.append_assoc, ← hdrop]; exact List.take_append_drop _ _
  obtain ⟨pre2, post2, h2, hstart2, htb2, hle2, hge2⟩ :=
    trim_region (B3.take (n0.length + 1)) v0 rest NUL (by decide)
  rw [hB3, hpre] at h2 htb2
  rw [hpre] at hstart2 hle2 hge2
  have hB4name : B3.set (pre2.length + (strip_spaces v0).length) NUL
      = pre1 ++ strip_spaces n0 ++ NUL ::
          post1.set (pre2.length + (strip_spaces v0).length
            - (pre1 ++ strip_spaces n0 ++ [NUL]).length) NUL := by
    have e : pre1 ++ strip_spaces n0 ++ NUL :: post1
        = (pre1 ++ strip_spaces n0 ++ [NUL]) ++ post1 := by simp
    rw [h1, e, List.set_append_right _ _ (by simp; omega)]
    simp
  rw [hstart2] at htb2 h2 ⊢
  rw [htb2] at h2 ⊢
  have c1 : B3.getD pre1.length NUL = NUL ↔ strip_spaces n0 = [] := by
    rw [h1]; exact getD_shape pre1 _ post1 hsn
  have c2 : (B3.set (pre2.length + (strip_spaces v0).length) NUL).getD pre2.length NUL = NUL
      ↔ strip_spaces v0 = [] := by
    rw [h2]; exact getD_shape pre2 _ post2 hsv
  have s1 : c_string_at (B3.set (pre2.length + (strip_spaces v0).length) NUL) pre1.length
      = strip_spaces n0 := by
    rw [hB4name]; exact c_string_at_shape pre1 _ _ hsn
  have s2 : c_string_at (B3.set (pre2.length + (strip_spaces v0).length) NUL) pre2.length
      = strip_spaces v0 := by
    rw [h2]; exact c_string_at_shape pre2 _ _ hsv
  rw [s1, s2]
  by_cases e1 : strip_spaces n0 = []
  · rw [if_pos (c1.mpr e1), if_neg (fun h => h.1 e1)]
  · rw [if_neg (mt c1.mp e1)]
    by_cases e2 : strip_spaces v0 = []
    · rw [if_pos (c2.mpr e2), if_neg (fun h => h.2 e2)]
    · rw [if_neg (mt c2.mp e2), if_pos ⟨e1, e2⟩]

theorem not_mem_takeWhile (p : Char → Bool) (l : List Char) (a : Char) (h : a ∉ l) :
    a ∉ l.takeWhile p :=
  fun hm => h ((List.takeWhile_sublist p).subset hm)

theorem cut_comment_eq (line : List Char) :
    (line.takeWhile (fun x => x != ';')).takeWhile (fun x => x != '#') = cut_comment line := by
  unfold cut_comment
  induction line with
  | nil => rfl
  | cons x xs ih =>
    by_cases h1 : x = ';'
    · subst h1; simp [List.takeWhile]
    · have hb1 : (x != ';') = true := by simpa using h1
      by_cases h2 : x = '#'
      · subst h2; simp [List.takeWhile]
      · have hb2 : (x != '#') = true := by simpa using h2
        simp [List.takeWhile, hb1, hb2, ih]

/-- The function `parse_line` computes `parse_line_spec` on every C string. -/
theorem parse_line_eq_spec (line : cstring) (h : NUL ∉ line) :
    parse_line line = parse_line_spec line := by
  obtain ⟨r1, h1⟩ := cut_step ';' (by decide) line [] h
  obtain ⟨r2, h2⟩ := cut_step '#' (by decide) (line.takeWhile (fun x => x != ';')) r1
    (not_mem_takeWhile _ _ _ h)
  have hl : NUL ∉ cut_comment line := not_mem_takeWhile _ _ _ h
  unfold parse_line parse_line_spec
  rw [h1, h2, cut_comment_eq]
  by_cases heq : '=' ∈ cut_comment line
  · have hsplit := takeWhile_split '=' (cut_comment line) heq
    have hn : NUL ∉ (cut_comment line).takeWhile (fun x => x != '=') :=
      not_mem_takeWhile _ _ _ hl
    have hv : NUL ∉ ((cut_comment line).dropWhile (fun x => x != '=')).drop 1 := by
      intro hm
      exact hl ((List.drop_sublist _ _).subset.trans (List.dropWhile_sublist _).subset hm)
    have hne : '=' ∉ (cut_comment line).takeWhile (fun x => x != '=') := by
      intro hm
      have := List.mem_takeWhile_imp hm
      simp at this
    have key := parse_line_split_at _ _ r2 hn hv hne
    have e : cut_comment line ++ NUL :: r2
        = (cut_comment line).takeWhile (fun x => x != '=') ++
            '=' :: (((cut_comment line).dropWhile (fun x => x != '=')).drop 1 ++ NUL :: r2) := by
      conv_lhs => rw [hsplit]
      simp
    rw [e, key]
    simp only [heq, if_true]
  · have hch : strchr (cut_comment line ++ NUL :: r2) '=' 0 = none := by
      rw [strchr_spec '=' (by decide) _ r2 hl 0]; simp [heq]
    unfold parse_line_split
    rw [hch]
    simp [heq]

theorem strip_trailing_getLast (t : List Char) : (strip_trailing t).getLast? ≠ some ' ' := by
  unfold strip_trailing
  rw [List.getLast?_reverse]
  intro hc
  have hne : t.reverse.dropWhile (fun c => c == ' ') ≠ [] := by
    intro e; rw [e] at hc; cases hc
  have := List.head_dropWhile_not (fun c => c == ' ') t.reverse hne
  rw [List.head?_eq_head hne] at hc
  injection hc with hc
  rw [hc] at this
  simp at this

theorem strip_spaces_head (m : List Char) : (strip_spaces m).head? ≠ some ' ' := by
  unfold strip_spaces
  obtain ⟨trail, hsplit, _⟩ := strip_trailing_split (m.dropWhile (fun c => c == ' '))
  intro hc
  have hne : m.dropWhile (fun c => c == ' ') ≠ [] := by
    intro e
    rw [e] at hc
    simp [strip_trailing] at hc
  have hhead : (m.dropWhile (fun c => c == ' ')).head? = some ' ' := by
    rw [hsplit, List.head?_append, hc]
    rfl
  have := List.head_dropWhile_not (fun c => c == ' ') m hne
  rw [List.head?_eq_head hne] at hhead
  injection hhead with hhead
  rw [hhead] at this
  simp at this

theorem not_comment_of_mem_cut (line : List Char) (a : Char) (h : a ∈ cut_comment line) :
    a ≠ ';' ∧ a ≠ '#' := by
  have := List.mem_takeWhile_imp h
  simpa using this

/-- C13. For every line (a C string): `parse_line` returns true exactly when, after the
line is cut at the first ';' or '#', it contains an '=' and both the text before the
first '=' and the text after it are non-empty once leading and trailing spaces are
removed (`parse_line_spec`); when it returns true, name and value are exactly those two
space-stripped texts, so that neither is empty, neither starts or ends with a space, and
neither contains ';' or '#'. -/
theorem C13_parse_line (line : cstring) (h : NUL ∉ line) :
    parse_line line = parse_line_spec line ∧
    ((parse_line line).isSome = true ↔
      '=' ∈ cut_comment line ∧
      strip_spaces ((cut_comment line).takeWhile (fun c => c != '=')) ≠ [] ∧
      strip_spaces (((cut_comment line).dropWhile (fun c => c != '=')).drop 1) ≠ []) ∧
    ∀ name value : cstring, parse_line line = some (name, value) →
      name = strip_spaces ((cut_comment line).takeWhile (fun c => c != '=')) ∧
      value = strip_spaces (((cut_comment line).dropWhile (fun c => c != '=')).drop 1) ∧
      name ≠ [] ∧ value ≠ [] ∧
      name.head? ≠ some ' ' ∧ name.getLast? ≠ some ' ' ∧
      value.head? ≠ some ' ' ∧ value.getLast? ≠ some ' ' ∧
      ';' ∉ name ∧ '#' ∉ name ∧ ';' ∉ value ∧ '#' ∉ value := by
  have hspec := parse_line_eq_spec line h
  refine ⟨hspec, ?_, ?_⟩
  · rw [hspec]
    unfold parse_line_spec
    by_cases heq : '=' ∈ cut_comment line
    · simp only [heq, if_true, true_and]
      split <;> simp_all
    · simp [heq]
  · intro name value hnv
    rw [hspec] at hnv
    unfold parse_line_spec at hnv
    simp only at hnv
    split at hnv
    · split at hnv
      · rename_i hne
        injection hnv with hnv
        injection hnv with hname hvalue
        subst hname
        subst hvalue
        refine ⟨rfl, rfl, hne.1, hne.2, strip_spaces_head _, strip_trailing_getLast _,
          strip_spaces_head _, strip_trailing_getLast _, ?_, ?_, ?_, ?_⟩
        · intro hm
          have := mem_of_mem_strip_spaces _ _ hm
          exact (not_comment_of_mem_cut line _ ((List.takeWhile_sublist _).subset this)).1 rfl
        · intro hm
          have := mem_of_mem_strip_spaces _ _ hm
          exact (not_comment_of_mem_cut line _ ((List.takeWhile_sublist _).subset this)).2 rfl
        · intro hm
          have := mem_of_mem_strip_spaces _ _ hm
          exact (not_comment_of_mem_cut line _
            ((List.dropWhile_sublist _).subset ((List.drop_sublist _ _).subset this))).1 rfl
        · intro hm
          have := mem_of_mem_strip_spaces _ _ hm
          exact (not_comment_of_mem_cut line _
            ((List.dropWhile_sublist _).subset ((List.drop_sublist _ _).subset this))).2 rfl
      · cases hnv
    · cases hnv

/-- C13, witness: a line with spaces around the name and the value, a second '=' in the
value, and a comment. -/
theorem C13_parse_line_witness :
    parse_line "  Name  =  a value = x  ; comment".toList
        = parse_line_spec "  Name  =  a value = x  ; comment".toList ∧
    parse_line "  Name  =  a value = x  ; comment".toList
        = some ("Name".toList, "a value = x".toList) :=
  ⟨(C13_parse_line "  Name  =  a value = x  ; comment".toList (by decide)).1, by decide⟩

end Main

/-! ## `variants_merge` -/

namespace BookMerge

/-- C15, the code at the failing input. The first list is "normal", "atomic960", the
second is "atomic": the result is the first list, in which "atomic" is no line, although
it is a line of the second list. `strstr` finds "atomic" inside "atomic960". -/
theorem C15_variant_inside_another_is_dropped :
    variants_merge "normal\natomic960".toList "atomic".toList = "normal\natomic960".toList ∧
    "atomic".toList ∈ ("atomic".toList).splitOn LF ∧
    "atomic".toList ∉ ("normal\natomic960".toList).splitOn LF := by
  decide

end BookMerge

/-- C7, witness: `engine_close` on the POSIX engine whose child wrote three lines and
exited, in the state ENGINE_ACTIVE, returns with ENGINE_ACTIVE still set. -/
theorem C7_state_bits_are_kept_witness :
    ∃ e1, Posix.call sample_flags 9 .close (Posix.fresh_engine [three_lines] true 2) = some e1 ∧
      ((Posix.engine_active sample_flags (Posix.fresh_engine [three_lines] true 2) = true →
          Posix.engine_active sample_flags e1 = true) ∧
       (Posix.engine_eof sample_flags (Posix.fresh_engine [three_lines] true 2) = true →
          Posix.engine_eof sample_flags e1 = true)) ∧
      Posix.engine_active sample_flags e1 = true :=
  ⟨_, rfl, (C7_state_bits_are_kept sample_flags 9 .close).1
    (Posix.fresh_engine [three_lines] true 2) _ rfl, rfl⟩

end PolyGlot
